import Mathlib

/-!
# Tracker registry and peer download manager

A shallow embedding of the tracker (`tracker/tracker.go`), of the peer's
download manager (`peer/client.go`), of the peer's file server
(`peer/server.go`) and of the heartbeat cycle (`peer/peer.go`), followed by the
properties proved about them.

Conventions of the embedding:

* a Go `map[string]ν` is an association list `GoMap ν`; a valid Go map has
  pairwise distinct keys (`GoMap.WF`).  `range` visits the entries in list
  order, one fixed choice of Go's unspecified iteration order;
* a `time.Time` instant and a `time.Duration` are integers counting nanoseconds;
* a handler returns the new tracker state together with the response message it
  writes to the connection; the clock reading `time.Now()` is an argument;
* locks are not modelled: every handler body runs as one atomic step.
-/

namespace P2P

/-! ## Go maps -/

/-- A Go `map[string]ν` as an association list. -/
abbrev GoMap (ν : Type) := List (String × ν)

namespace GoMap

variable {ν : Type}

/-- The keys of the map, in iteration order. -/
def keys (m : GoMap ν) : List String := m.map Prod.fst

/-- The lookup `v, exists := m[k]`. -/
def get? : GoMap ν → String → Option ν
  | [], _ => none
  | (k', v) :: m, k => if k' = k then some v else get? m k

/-- The assignment `m[k] = v`: an existing entry is overwritten in place. -/
def set : GoMap ν → String → ν → GoMap ν
  | [], k, v => [(k, v)]
  | (k', v') :: m, k, v => if k' = k then (k, v) :: m else (k', v') :: set m k v

/-- The builtin `delete(m, k)`. -/
def delete (m : GoMap ν) (k : String) : GoMap ν := m.filter (fun e => e.1 ≠ k)

/-- A valid Go map holds each key once. -/
def WF (m : GoMap ν) : Prop := (keys m).Nodup

instance (m : GoMap ν) : Decidable (WF m) := by
  unfold WF; infer_instance

end GoMap

/-! ## Time -/

/-! A `time.Time` instant and a `time.Duration` are both of type `Int`, in
nanoseconds. -/

/-- The constant `time.Second`. -/
def Second : Int := 1000000000

/-- The constant `time.Minute`. -/
def Minute : Int := 60 * Second

/-- The largest `time.Duration` (`1<<63 - 1`). -/
def maxDuration : Int := 2 ^ 63 - 1

/-- The smallest `time.Duration` (`-1 << 63`). -/
def minDuration : Int := -(2 ^ 63)

/-- The method `Time.Sub`: the difference `t - u`, saturated to the range of
`time.Duration`. -/
def Time.Sub (t u : Int) : Int :=
  if t - u > maxDuration then maxDuration
  else if t - u < minDuration then minDuration
  else t - u

/-! ## Wire protocol (`common/protocol.go`) -/

/-- The struct `common.Message`. -/
structure Message where
  Command : String := ""
  Address : String := ""
  Files : List String := []
  FileMap : GoMap (List String) := []
  Filename : String := ""
  Peers : List String := []
  Status : String := ""
  Size : Int := 0
  deriving DecidableEq, Repr

/-! ## Tracker (`tracker/tracker.go`) -/

/-- The struct `Tracker` without its two locks.  The inner `map[string]bool`
of `files` is a set of peer addresses; a nil inner map behaves like an empty
one in every statement of the tracker and is not told apart from it. -/
structure Tracker where
  peers : GoMap Int
  files : GoMap (GoMap Bool)
  deriving DecidableEq, Repr

/-- The constructor `NewTracker`. -/
def NewTracker : Tracker := { peers := [], files := [] }

/-- The staleness threshold `3*time.Minute` of `cleanupRoutine`. -/
def staleThreshold : Int := 3 * Minute

/-- The period `30 * time.Second` of the ticker in `Peer.heartbeatRoutine`. -/
def heartbeatInterval : Int := 30 * Second

/-- The body of the loop over `msg.Files` in `handleRegister`:
`if t.files[file] == nil { t.files[file] = make(map[string]bool) }` and then
`t.files[file][msg.Address] = true`. -/
def registerFile (address : String) (files : GoMap (GoMap Bool)) (file : String) :
    GoMap (GoMap Bool) :=
  let files1 := match GoMap.get? files file with
    | none => GoMap.set files file []
    | some _ => files
  GoMap.set files1 file (GoMap.set ((GoMap.get? files1 file).getD []) address true)

/-- The handler `Tracker.handleRegister`; `now` is the value of `time.Now()`. -/
def handleRegister (t : Tracker) (msg : Message) (now : Int) : Tracker × Message :=
  let peers := GoMap.set t.peers msg.Address now
  let files := msg.Files.foldl (registerFile msg.Address) t.files
  ({ peers := peers, files := files }, { Status := "ok" })

/-- The handler `Tracker.handleHeartbeat`; `now` is the value of `time.Now()`. -/
def handleHeartbeat (t : Tracker) (msg : Message) (now : Int) : Tracker × Message :=
  match GoMap.get? t.peers msg.Address with
  | some _ => ({ t with peers := GoMap.set t.peers msg.Address now }, { Status := "ok" })
  | none => (t, { Status := "peer not registered" })

/-- The body of the loop `for file := range t.files` in `cleanupRoutine`:
`delete(t.files[file], addr)` and then
`if len(t.files[file]) == 0 { delete(t.files, file) }`. -/
def removeFromFile (addr : String) (files : GoMap (GoMap Bool)) (file : String) :
    GoMap (GoMap Bool) :=
  let files1 := match GoMap.get? files file with
    | some s => GoMap.set files file (GoMap.delete s addr)
    | none => files
  if ((GoMap.get? files1 file).getD []).length = 0 then GoMap.delete files1 file else files1

/-- The loop `for file := range t.files` of `cleanupRoutine` for one address. -/
def removeFromFiles (addr : String) (files : GoMap (GoMap Bool)) : GoMap (GoMap Bool) :=
  (GoMap.keys files).foldl (removeFromFile addr) files

/-- The body of the loop `for addr, lastSeen := range t.peers` of
`cleanupRoutine`. -/
def cleanupStep (now : Int) (t : Tracker) (e : String × Int) : Tracker :=
  if Time.Sub now e.2 > staleThreshold then
    { peers := GoMap.delete t.peers e.1, files := removeFromFiles e.1 t.files }
  else t

/-- One reaper pass: the body of the ticker loop of `Tracker.cleanupRoutine`,
with `now` the value of `time.Now()`.  The loop deletes only the entry it is
visiting, so it visits every entry the map had when the pass began. -/
def cleanupRoutine (t : Tracker) (now : Int) : Tracker :=
  t.peers.foldl (cleanupStep now) t

/-- The handler `Tracker.handleList`. -/
def handleList (t : Tracker) : Message :=
  let fileMap : GoMap (List String) := t.files.foldl
    (fun fm e => (GoMap.keys e.2).foldl
      (fun fm peer => GoMap.set fm e.1 ((GoMap.get? fm e.1).getD [] ++ [peer])) fm)
    []
  { Status := "ok", FileMap := fileMap }

/-- The handler `Tracker.handleGetPeers`. -/
def handleGetPeers (t : Tracker) (msg : Message) : Message :=
  let peers := match GoMap.get? t.files msg.Filename with
    | some filePeers => GoMap.keys filePeers
    | none => []
  { Status := "ok", Peers := peers }

/-- One atomic step of the tracker registry: a `register` request, a
`heartbeat` request, or one pass of the reaper, each with its clock reading. -/
inductive Op where
  | register (msg : Message) (now : Int)
  | heartbeat (msg : Message) (now : Int)
  | reap (now : Int)
  deriving DecidableEq, Repr

/-- The tracker state after one step. -/
def step (t : Tracker) : Op → Tracker
  | Op.register msg now => (handleRegister t msg now).1
  | Op.heartbeat msg now => (handleHeartbeat t msg now).1
  | Op.reap now => cleanupRoutine t now

/-- The tracker state after a sequence of steps. -/
def run (t : Tracker) (ops : List Op) : Tracker := ops.foldl step t

/-- The address `a` is recorded for the file `f`. -/
def Advertises (m : GoMap (GoMap Bool)) (f a : String) : Prop :=
  ∃ s, GoMap.get? m f = some s ∧ GoMap.get? s a = some true

/-- What the reaper leaves of one file's peer set `s` when it removes `addr`:
the set without `addr`, or no entry at all when that set is empty. -/
def prune (addr : String) (s : GoMap Bool) : Option (GoMap Bool) :=
  if GoMap.delete s addr = [] then none else some (GoMap.delete s addr)

/-- The addresses whose liveness entry a reaper pass at `now` finds stale, in
iteration order. -/
def staleAddrs (peers : GoMap Int) (now : Int) : List String :=
  (peers.filter (fun e => Time.Sub now e.2 > staleThreshold)).map Prod.fst

/-- The address `p` is in the peer set that the file index holds for `f`. -/
def InPeerSet (m : GoMap (GoMap Bool)) (f p : String) : Prop :=
  ∃ s, GoMap.get? m f = some s ∧ p ∈ GoMap.keys s

/-- A tracker state whose three levels of maps are valid Go maps: no key
occurs twice in the liveness map, in the file index, or in a peer set. -/
def Tracker.WF (t : Tracker) : Prop :=
  GoMap.WF t.peers ∧ GoMap.WF t.files ∧ ∀ e ∈ t.files, GoMap.WF e.2

instance (t : Tracker) : Decidable (Tracker.WF t) := by
  unfold Tracker.WF; infer_instance

/-- Every address in a peer set of the file index has a liveness record. -/
def NoZombie (t : Tracker) : Prop :=
  ∀ f p, InPeerSet t.files f p → p ∈ GoMap.keys t.peers

/-- No filename of the file index maps to an empty peer set. -/
def NoEmpty (t : Tracker) : Prop :=
  ∀ f s, GoMap.get? t.files f = some s → s ≠ []

/-- The address `a` has a liveness record in `peers` whose last-seen timestamp
is more than three minutes before `now`. -/
def IsStale (peers : GoMap Int) (now : Int) (a : String) : Prop :=
  ∃ ts, GoMap.get? peers a = some ts ∧ now - ts > 3 * Minute

instance (peers : GoMap Int) (now : Int) (a : String) : Decidable (IsStale peers now a) :=
  match h : GoMap.get? peers a with
  | none => isFalse (fun ⟨_, h1, _⟩ => by rw [h] at h1; cases h1)
  | some ts =>
    if h2 : now - ts > 3 * Minute then isTrue ⟨ts, h, h2⟩
    else isFalse (fun ⟨_, h1, h3⟩ => by rw [h] at h1; cases h1; exact h2 h3)

/-- A sample tracker state: `a` was last seen at time 0 and advertises `f` and
`g`; `b` was last seen after 200 seconds and advertises `g`. -/
def sampleTracker : Tracker :=
  { peers := [("a", 0), ("b", 200 * Second)],
    files := [("f", [("a", true)]), ("g", [("a", true), ("b", true)])] }

/-- The peer `p` is not reaped along `ops` run from `t`: at every reaper pass
the last-seen timestamp of `p` is within the staleness threshold. -/
def notReaped (p : String) : Tracker → List Op → Bool
  | _, [] => true
  | t, Op.reap now :: ops =>
    decide (¬ IsStale t.peers now p) && notReaped p (cleanupRoutine t now) ops
  | t, op :: ops => notReaped p (step t op) ops

/-- The step is a `register` request for the address `p`. -/
def registersAddr (p : String) : Op → Bool
  | Op.register msg _ => decide (msg.Address = p)
  | _ => false

/-! ## Peer download manager (`peer/client.go`) -/

/-- The `%v` rendering of a Go `error`: the text of `err.Error()`, or `<nil>`
for the nil error.  An error value is kept as that text, `none` being nil. -/
def fmtError : Option String → String
  | some e => e
  | none => "<nil>"

/-- The loop "Try each peer until successful" of `Peer.DownloadFile`.
`downloadFromPeer w addr` stands for the call
`p.downloadFromPeer(addr, filename, outputDir)` made in the world `w` (the
network, the file system, the peer's own maps): it gives the error returned
(`none` for nil) and the world left behind.  `lastError` is the variable of
that name.  `log` records, in order, every call made with its outcome.  The
result is the error returned by `DownloadFile`, the log, and the final world. -/
def tryPeers {σ : Type} (downloadFromPeer : σ → String → Option String × σ) :
    List String → σ → Option String → List (String × Option String) →
      Option String × List (String × Option String) × σ
  | [], w, lastError, log =>
    (some ("all download attempts failed. Last error: " ++ fmtError lastError), log, w)
  | peerAddr :: rest, w, _, log =>
    match downloadFromPeer w peerAddr with
    | (none, w') => (none, log ++ [(peerAddr, none)], w')
    | (some err, w') =>
      tryPeers downloadFromPeer rest w' (some err) (log ++ [(peerAddr, some err)])

/-- The method `Peer.DownloadFile`.  `exchange` is the outcome of the `getpeers`
exchange with the tracker: the error of `net.Dial`, `WriteMessage` or
`ReadMessage`, or the response read.  The refresh of the advisory cache
`ActivePeers`, which the loop never reads, is left out. -/
def DownloadFile {σ : Type} (exchange : Except String Message)
    (downloadFromPeer : σ → String → Option String × σ) (w : σ) :
    Option String × List (String × Option String) × σ :=
  match exchange with
  | Except.error err => (some err, [], w)
  | Except.ok response =>
    if response.Status ≠ "ok" ∨ response.Peers.length = 0 then
      (some "no peers available for file", [], w)
    else tryPeers downloadFromPeer response.Peers w none []

/-- The calls `downloadFromPeer(addr, ...)` made on every peer of `peers` one
after the other from the world `w`, each in the world the previous call left:
the address called and the error it returns (`none` for nil). -/
def attempts {σ : Type} (downloadFromPeer : σ → String → Option String × σ) :
    σ → List String → List (String × Option String)
  | _, [] => []
  | w, a :: rest =>
    (a, (downloadFromPeer w a).1) :: attempts downloadFromPeer (downloadFromPeer w a).2 rest

/-- The world left by calling `downloadFromPeer` on every peer of `peers`, one
after the other, once each, from the world `w`. -/
def worldAfter {σ : Type} (downloadFromPeer : σ → String → Option String × σ) (w : σ)
    (peers : List String) : σ :=
  peers.foldl (fun w a => (downloadFromPeer w a).2) w

/-- The position in `peers` of the first peer whose attempt succeeds when the
peers are tried in order from the world `w`; the length of `peers` when no
attempt succeeds. -/
def firstSuccess {σ : Type} (downloadFromPeer : σ → String → Option String × σ) (w : σ)
    (peers : List String) : Nat :=
  (attempts downloadFromPeer w peers).findIdx (fun e => e.2.isNone)

/-- A sample `downloadFromPeer` for the peers `A` and `B`: `A` cannot be
reached; `B` serves the file when `bUp` holds.  The world is the list of the
addresses dialled so far. -/
def sampleDownload (bUp : Bool) (w : List String) (addr : String) :
    Option String × List String :=
  if addr = "B" ∧ bUp = true then (none, w ++ [addr])
  else (some ("dial tcp " ++ addr ++ ": connection refused"), w ++ [addr])

/-- A sample `downloadFromPeer` whose outcome depends on the world: an address
drops the connection the first time it is dialled and serves the file from
the second time on.  The world is the list of the addresses dialled so far. -/
def retryDownload (w : List String) (addr : String) : Option String × List String :=
  if addr ∈ w then (none, w ++ [addr]) else (some "EOF", w ++ [addr])

/-! ## Peer file server (`peer/server.go`)

`filepath.Join` and `filepath.Clean` belong to the Go standard library; they are
written here after the library's algorithm for slash-separated paths, working
on whole path elements where the library works on bytes. -/

/-- The elements of a path between its separators (`strings.Split(path, "/")`). -/
def splitSep : List Char → List (List Char)
  | [] => [[]]
  | c :: cs =>
    if c = '/' then [] :: splitSep cs
    else
      match splitSep cs with
      | [] => [[c]]
      | e :: es => (c :: e) :: es

/-- One round of the loop of `filepath.Clean` on the path element `e`.  The
state is the output written so far, as a list of elements, and `dotdot`, the
number of output elements that backtracking must not remove (a leading run of
`..` elements). -/
def cleanElem (rooted : Bool) (st : List (List Char) × Nat) (e : List Char) :
    List (List Char) × Nat :=
  if e = [] then st
  else if e = ['.'] then st
  else if e = ['.', '.'] then
    if st.1.length > st.2 then (st.1.dropLast, st.2)
    else if rooted = false then (st.1 ++ [e], st.1.length + 1)
    else st
  else (st.1 ++ [e], st.2)

/-- The lexical resolution of a path, as `filepath.Clean` computes it: whether
the path is rooted, and the elements that remain once empty and `.` elements
are dropped and every `..` has removed the element before it. -/
def cleanElems (path : List Char) : Bool × List (List Char) :=
  let rooted := decide (path.head? = some '/')
  (rooted, ((splitSep path).foldl (cleanElem rooted) ([], 0)).1)

/-- The elements written one after the other with a separator in between. -/
def joinSep : List (List Char) → List Char
  | [] => []
  | [e] => e
  | e :: e' :: es => e ++ '/' :: joinSep (e' :: es)

/-- The text of a resolved path: the output buffer of `filepath.Clean`, with
its leading separator when the path is rooted, and `.` when it is empty. -/
def render : Bool × List (List Char) → List Char
  | (true, out) => '/' :: joinSep out
  | (false, []) => ['.']
  | (false, e :: out) => joinSep (e :: out)

/-- A path element that `filepath.Clean` copies to its output and that no later
element but `..` removes: not empty, not `.`, not `..`, without separator. -/
def Normal (e : List Char) : Prop :=
  e ≠ [] ∧ e ≠ ['.'] ∧ e ≠ ['.', '.'] ∧ '/' ∉ e

/-- The function `filepath.Clean` for slash-separated paths. -/
def Clean (path : String) : String :=
  if path = "" then "."
  else String.mk (render (cleanElems path.data))

/-- The function `filepath.Join`: the elements from the first non-empty one on
are joined with separators and cleaned. -/
def Join (elem : List String) : String :=
  match elem.dropWhile (fun e => decide (e = "")) with
  | [] => ""
  | e :: es => Clean (String.intercalate "/" (e :: es))

/-- The struct `Peer` without its two locks. -/
structure Peer where
  ID : String
  TrackerAddr : String
  SharedDir : String
  ServerPort : String
  KnownFiles : GoMap Bool
  ActivePeers : GoMap Int

/-- The handler `Peer.handleDownload`.  `fs path` is what the file system
answers for `path`: `none` when `os.Open` fails, `some none` when `file.Stat`
fails, `some (some n)` for a file of `n` bytes.  The result is the path passed
to `os.Open` and the response written; after an "ok" response the `n` bytes of
that file follow on the connection. -/
def handleDownload (p : Peer) (fs : String → Option (Option Int)) (msg : Message) :
    String × Message :=
  let filePath := Join [p.SharedDir, msg.Filename]
  match fs filePath with
  | none => (filePath, { Status := "file not found" })
  | some none => (filePath, { Status := "server error" })
  | some (some size) => (filePath, { Status := "ok", Size := size })

/-- The path `path` lies within the directory `dir`: both are rooted or both
are not, and the resolved elements of `dir` begin the resolved elements of
`path`. -/
def Within (dir path : String) : Prop :=
  (cleanElems dir.data).1 = (cleanElems path.data).1 ∧
    List.isPrefixOf (cleanElems dir.data).2 (cleanElems path.data).2 = true

instance (dir path : String) : Decidable (Within dir path) := by
  unfold Within; infer_instance

/-- A sample peer sharing the directory `shared`. -/
def samplePeer : Peer :=
  { ID := "10.0.0.1:9001", TrackerAddr := "10.0.0.9:9000", SharedDir := "shared",
    ServerPort := "9001", KnownFiles := [], ActivePeers := [] }

/-- A sample file system: `shared/a.txt` of 12 bytes and, outside the shared
directory, `secret.txt` of 7 bytes. -/
def sampleFs (path : String) : Option (Option Int) :=
  if path = "shared/a.txt" then some (some 12)
  else if path = "secret.txt" then some (some 7)
  else none

/-- The shape of the output of `filepath.Clean` during its loop: `dotdot`
elements `..` followed by normal elements, and no `..` at all in a rooted
path. -/
def CleanInv (rooted : Bool) (st : List (List Char) × Nat) : Prop :=
  ∃ ns, st.1 = List.replicate st.2 ['.', '.'] ++ ns ∧ (∀ e ∈ ns, Normal e) ∧
    (rooted = true → st.2 = 0)

/-! ## Lemmas on Go maps -/

namespace GoMap

variable {ν : Type}

@[simp] theorem keys_nil : keys ([] : GoMap ν) = [] := rfl

@[simp] theorem keys_cons (e : String × ν) (m : GoMap ν) : keys (e :: m) = e.1 :: keys m := rfl

@[simp] theorem get?_nil (k : String) : get? ([] : GoMap ν) k = none := rfl

theorem get?_cons (k' : String) (v : ν) (m : GoMap ν) (k : String) :
    get? ((k', v) :: m) k = if k' = k then some v else get? m k := rfl

theorem get?_eq_none_iff (m : GoMap ν) (k : String) : get? m k = none ↔ k ∉ keys m := by
  induction m with
  | nil => simp
  | cons e m ih =>
    obtain ⟨k', v⟩ := e
    by_cases h : k' = k
    · simp [get?_cons, h]
    · have h' : ¬ k = k' := fun x => h x.symm
      simp [get?_cons, h, h', ih]

theorem mem_keys_iff (m : GoMap ν) (k : String) : k ∈ keys m ↔ ∃ v, get? m k = some v := by
  rw [← not_iff_not, ← get?_eq_none_iff]
  cases get? m k <;> simp

theorem get?_mem (m : GoMap ν) (k : String) (v : ν) (h : get? m k = some v) : (k, v) ∈ m := by
  induction m with
  | nil => simp at h
  | cons e m ih =>
    obtain ⟨k', v'⟩ := e
    by_cases hk : k' = k
    · simp [get?_cons, hk] at h
      simp [hk, h]
    · simp [get?_cons, hk] at h
      exact List.mem_cons_of_mem _ (ih h)

theorem get?_of_mem (m : GoMap ν) (hm : WF m) (k : String) (v : ν) (h : (k, v) ∈ m) :
    get? m k = some v := by
  induction m with
  | nil => simp at h
  | cons e m ih =>
    obtain ⟨k', v'⟩ := e
    have hnd : k' ∉ keys m ∧ (keys m).Nodup := by simpa [WF] using hm
    rcases List.mem_cons.1 h with h | h
    · cases h; simp [get?_cons]
    · have hk : k ∈ keys m := List.mem_map.2 ⟨(k, v), h, rfl⟩
      have hne : ¬ k' = k := fun x => hnd.1 (x ▸ hk)
      simp [get?_cons, hne, ih hnd.2 h]

@[simp] theorem get?_set_self (m : GoMap ν) (k : String) (v : ν) : get? (set m k v) k = some v := by
  induction m with
  | nil => simp [set, get?_cons]
  | cons e m ih =>
    obtain ⟨k', v'⟩ := e
    by_cases h : k' = k <;> simp [set, get?_cons, h, ih]

theorem get?_set_ne (m : GoMap ν) (k k' : String) (v : ν) (h : k' ≠ k) :
    get? (set m k v) k' = get? m k' := by
  induction m with
  | nil => simp [set, get?_cons, h.symm]
  | cons e m ih =>
    obtain ⟨k0, v0⟩ := e
    by_cases h0 : k0 = k
    · subst h0
      simp [set, get?_cons, h.symm]
    · simp [set, get?_cons, h0, ih]

theorem get?_set (m : GoMap ν) (k k' : String) (v : ν) :
    get? (set m k v) k' = if k' = k then some v else get? m k' := by
  by_cases h : k' = k
  · subst h; simp
  · simp [h, get?_set_ne m k k' v h]

theorem keys_set_of_mem (m : GoMap ν) (k : String) (v : ν) (h : k ∈ keys m) :
    keys (set m k v) = keys m := by
  induction m with
  | nil => simp at h
  | cons e m ih =>
    obtain ⟨k0, v0⟩ := e
    by_cases h0 : k0 = k
    · simp [set, h0]
    · have : k ∈ keys m := by
        rcases List.mem_cons.1 h with h | h
        · exact absurd h.symm h0
        · exact h
      simp [set, h0, ih this]

theorem keys_set_of_not_mem (m : GoMap ν) (k : String) (v : ν) (h : k ∉ keys m) :
    keys (set m k v) = keys m ++ [k] := by
  induction m with
  | nil => simp [set]
  | cons e m ih =>
    obtain ⟨k0, v0⟩ := e
    have h1 : ¬ k0 = k := fun x => h (by simp [x])
    have h2 : k ∉ keys m := fun x => h (List.mem_cons_of_mem _ x)
    simp [set, h1, ih h2]

theorem mem_keys_set (m : GoMap ν) (k k' : String) (v : ν) :
    k' ∈ keys (set m k v) ↔ k' = k ∨ k' ∈ keys m := by
  by_cases h : k ∈ keys m
  · rw [keys_set_of_mem m k v h]
    constructor
    · exact Or.inr
    · rintro (rfl | h') <;> assumption
  · rw [keys_set_of_not_mem m k v h]
    simp [or_comm]

theorem wf_set (m : GoMap ν) (k : String) (v : ν) (h : WF m) : WF (set m k v) := by
  unfold WF at *
  by_cases hk : k ∈ keys m
  · rwa [keys_set_of_mem m k v hk]
  · rw [keys_set_of_not_mem m k v hk]
    exact List.Nodup.append h (List.nodup_singleton k) (by simpa using hk)

theorem set_eq_self (m : GoMap ν) (k : String) (v : ν) (h : get? m k = some v) :
    set m k v = m := by
  induction m with
  | nil => simp at h
  | cons e m ih =>
    obtain ⟨k0, v0⟩ := e
    by_cases h0 : k0 = k
    · simp [get?_cons, h0] at h
      simp [set, h0, h]
    · simp [get?_cons, h0] at h
      simp [set, h0, ih h]

@[simp] theorem delete_nil (k : String) : delete ([] : GoMap ν) k = [] := rfl

theorem delete_cons (k0 : String) (v0 : ν) (m : GoMap ν) (k : String) :
    delete ((k0, v0) :: m) k = if k0 = k then delete m k else (k0, v0) :: delete m k := by
  by_cases h : k0 = k <;> simp [delete, h]

theorem keys_delete (m : GoMap ν) (k : String) :
    keys (delete m k) = (keys m).filter (fun x => x ≠ k) := by
  induction m with
  | nil => rfl
  | cons e m ih =>
    obtain ⟨k0, v0⟩ := e
    by_cases h0 : k0 = k <;> simp [delete_cons, h0, ih]

theorem mem_keys_delete (m : GoMap ν) (k k' : String) :
    k' ∈ keys (delete m k) ↔ k' ≠ k ∧ k' ∈ keys m := by
  simp [keys_delete, and_comm]

theorem wf_delete (m : GoMap ν) (k : String) (h : WF m) : WF (delete m k) := by
  unfold WF at *
  rw [keys_delete]
  exact h.filter _

theorem get?_delete (m : GoMap ν) (k k' : String) :
    get? (delete m k) k' = if k' = k then none else get? m k' := by
  induction m with
  | nil => simp
  | cons e m ih =>
    obtain ⟨k0, v0⟩ := e
    by_cases h0 : k0 = k
    · subst h0
      by_cases h1 : k' = k0
      · subst h1
        simp [delete_cons, ih]
      · have : ¬ k0 = k' := fun x => h1 x.symm
        simp [delete_cons, ih, h1, get?_cons, this]
    · by_cases h1 : k' = k
      · subst h1
        simp [delete_cons, h0, get?_cons, ih]
      · simp [delete_cons, h0, get?_cons, ih, h1]

end GoMap

/-! ## Registration -/

theorem GoMap.set_set {ν : Type} (m : GoMap ν) (k : String) (v v' : ν) :
    GoMap.set (GoMap.set m k v) k v' = GoMap.set m k v' := by
  induction m with
  | nil => simp [GoMap.set]
  | cons e m ih =>
    obtain ⟨k0, v0⟩ := e
    by_cases h0 : k0 = k <;> simp [GoMap.set, h0, ih]

theorem registerFile_eq (a : String) (m : GoMap (GoMap Bool)) (f : String) :
    registerFile a m f = GoMap.set m f (GoMap.set ((GoMap.get? m f).getD []) a true) := by
  unfold registerFile
  cases h : GoMap.get? m f with
  | none => simp [GoMap.set_set]
  | some s => simp [h]

theorem get?_registerFile (a : String) (m : GoMap (GoMap Bool)) (f f' : String) :
    GoMap.get? (registerFile a m f) f' =
      if f' = f then some (GoMap.set ((GoMap.get? m f).getD []) a true) else GoMap.get? m f' := by
  rw [registerFile_eq, GoMap.get?_set]

theorem get?_foldl_registerFile (a : String) (fs : List String) (m : GoMap (GoMap Bool))
    (f' : String) :
    GoMap.get? (fs.foldl (registerFile a) m) f' =
      if f' ∈ fs then some (GoMap.set ((GoMap.get? m f').getD []) a true)
      else GoMap.get? m f' := by
  induction fs generalizing m with
  | nil => simp
  | cons f fs ih =>
    rw [List.foldl_cons, ih, get?_registerFile]
    by_cases h1 : f' = f
    · subst h1
      simp [GoMap.set_set]
    · by_cases h2 : f' ∈ fs <;> simp [h1, h2]

theorem registerFile_fixed (a : String) (m : GoMap (GoMap Bool)) (f : String)
    (h : Advertises m f a) : registerFile a m f = m := by
  obtain ⟨s, h1, h2⟩ := h
  rw [registerFile_eq, h1]
  simp only [Option.getD_some]
  rw [GoMap.set_eq_self s a true h2, GoMap.set_eq_self m f s h1]

theorem advertises_foldl_registerFile (a : String) (fs : List String) (m : GoMap (GoMap Bool))
    (f : String) (h : f ∈ fs) : Advertises (fs.foldl (registerFile a) m) f a := by
  refine ⟨GoMap.set ((GoMap.get? m f).getD []) a true, ?_, ?_⟩
  · rw [get?_foldl_registerFile, if_pos h]
  · simp

theorem foldl_registerFile_fixed (a : String) (fs : List String) (m : GoMap (GoMap Bool))
    (h : ∀ f ∈ fs, Advertises m f a) : fs.foldl (registerFile a) m = m := by
  induction fs with
  | nil => rfl
  | cons f fs ih =>
    rw [List.foldl_cons, registerFile_fixed a m f (h f (List.mem_cons_self _ _))]
    exact ih (fun g hg => h g (List.mem_cons_of_mem _ hg))

/-- Claim C10.  `handleRegister` answers "ok" for every state, address and
file list, and a second identical `register` leaves the file index and the
registered addresses as the first one left them: only the timestamp of that
address changes. -/
theorem handleRegister_idempotent (t : Tracker) (msg : Message) (now1 now2 : Int) :
    (handleRegister t msg now1).2 = { Status := "ok" } ∧
    (handleRegister (handleRegister t msg now1).1 msg now2).2 = { Status := "ok" } ∧
    (handleRegister (handleRegister t msg now1).1 msg now2).1.files =
      (handleRegister t msg now1).1.files ∧
    GoMap.keys (handleRegister (handleRegister t msg now1).1 msg now2).1.peers =
      GoMap.keys (handleRegister t msg now1).1.peers ∧
    GoMap.get? (handleRegister (handleRegister t msg now1).1 msg now2).1.peers msg.Address =
      some now2 ∧
    (∀ a, a ≠ msg.Address →
      GoMap.get? (handleRegister (handleRegister t msg now1).1 msg now2).1.peers a =
        GoMap.get? (handleRegister t msg now1).1.peers a) := by
  refine ⟨rfl, rfl, ?_, ?_, ?_, ?_⟩
  · exact foldl_registerFile_fixed _ _ _
      (fun f hf => advertises_foldl_registerFile _ _ _ f hf)
  · exact GoMap.keys_set_of_mem _ _ _ ((GoMap.mem_keys_set _ _ _ _).2 (Or.inl rfl))
  · exact GoMap.get?_set_self _ _ _
  · intro a ha
    exact GoMap.get?_set_ne _ _ _ _ ha

/-! ## The reaper -/

theorem get?_removeFromFile (a : String) (m : GoMap (GoMap Bool)) (k f : String) :
    GoMap.get? (removeFromFile a m k) f =
      if f = k then (GoMap.get? m k).bind (prune a) else GoMap.get? m f := by
  unfold removeFromFile
  cases h : GoMap.get? m k with
  | none =>
    simp only [Option.getD_none, List.length_nil, if_true, Option.bind_none, h]
    rw [GoMap.get?_delete]
    by_cases hf : f = k <;> simp [hf]
  | some s =>
    by_cases he : GoMap.delete s a = []
    · simp only [GoMap.get?_set_self, Option.getD_some, he, List.length_nil, if_true]
      rw [GoMap.get?_delete, GoMap.get?_set]
      by_cases hf : f = k <;> simp [hf, prune, he]
    · have hl : (GoMap.delete s a).length ≠ 0 := by simpa using he
      simp only [GoMap.get?_set_self, Option.getD_some, hl, if_false]
      rw [GoMap.get?_set]
      by_cases hf : f = k <;> simp [hf, prune, he]

theorem prune_prune (a : String) (o : Option (GoMap Bool)) :
    (o.bind (prune a)).bind (prune a) = o.bind (prune a) := by
  cases o with
  | none => rfl
  | some s =>
    simp only [Option.some_bind]
    by_cases he : GoMap.delete s a = []
    · simp [prune, he]
    · have hd : GoMap.delete (GoMap.delete s a) a = GoMap.delete s a := by
        simp [GoMap.delete, List.filter_filter]
      simp [prune, he, hd]

theorem get?_foldl_removeFromFile (a : String) (ks : List String) (m : GoMap (GoMap Bool))
    (f : String) :
    GoMap.get? (ks.foldl (removeFromFile a) m) f =
      if f ∈ ks then (GoMap.get? m f).bind (prune a) else GoMap.get? m f := by
  induction ks generalizing m with
  | nil => simp
  | cons k ks ih =>
    rw [List.foldl_cons, ih, get?_removeFromFile]
    by_cases h1 : f = k
    · subst h1
      simp [prune_prune]
    · by_cases h2 : f ∈ ks <;> simp [h1, h2]

theorem get?_removeFromFiles (a : String) (m : GoMap (GoMap Bool)) (f : String) :
    GoMap.get? (removeFromFiles a m) f = (GoMap.get? m f).bind (prune a) := by
  unfold removeFromFiles
  rw [get?_foldl_removeFromFile]
  by_cases h : f ∈ GoMap.keys m
  · simp [h]
  · simp [h, (GoMap.get?_eq_none_iff m f).2 h]

theorem foldl_cleanupStep (now : Int) (es : GoMap Int) (t : Tracker) :
    es.foldl (cleanupStep now) t =
      { peers := (staleAddrs es now).foldl GoMap.delete t.peers,
        files := (staleAddrs es now).foldl (fun fs a => removeFromFiles a fs) t.files } := by
  induction es generalizing t with
  | nil => rfl
  | cons e es ih =>
    rw [List.foldl_cons, ih]
    by_cases h : Time.Sub now e.2 > staleThreshold
    · simp [cleanupStep, staleAddrs, h]
    · simp [cleanupStep, staleAddrs, h]

theorem cleanupRoutine_eq (t : Tracker) (now : Int) :
    cleanupRoutine t now =
      { peers := (staleAddrs t.peers now).foldl GoMap.delete t.peers,
        files := (staleAddrs t.peers now).foldl (fun fs a => removeFromFiles a fs) t.files } :=
  foldl_cleanupStep now t.peers t

theorem get?_foldl_delete {ν : Type} (S : List String) (m : GoMap ν) (a : String) :
    GoMap.get? (S.foldl GoMap.delete m) a = if a ∈ S then none else GoMap.get? m a := by
  induction S generalizing m with
  | nil => simp
  | cons b S ih =>
    rw [List.foldl_cons, ih, GoMap.get?_delete]
    by_cases h1 : a = b
    · simp [h1]
    · by_cases h2 : a ∈ S <;> simp [h1, h2]

theorem get?_foldl_removeFromFiles (S : List String) (m : GoMap (GoMap Bool)) (f : String) :
    GoMap.get? (S.foldl (fun fs a => removeFromFiles a fs) m) f =
      S.foldl (fun o a => o.bind (prune a)) (GoMap.get? m f) := by
  induction S generalizing m with
  | nil => rfl
  | cons b S ih => rw [List.foldl_cons, ih, get?_removeFromFiles, List.foldl_cons]

theorem foldl_prune_none (S : List String) :
    S.foldl (fun o a => o.bind (prune a)) none = none := by
  induction S with
  | nil => rfl
  | cons b S ih => simpa using ih

theorem foldl_prune_some (S : List String) (s : GoMap Bool) :
    S.foldl (fun o a => o.bind (prune a)) (some s) =
      if S = [] then some s
      else if s.filter (fun e => e.1 ∉ S) = [] then none
      else some (s.filter (fun e => e.1 ∉ S)) := by
  induction S generalizing s with
  | nil => simp
  | cons b S ih =>
    rw [List.foldl_cons, Option.some_bind]
    have hf : (GoMap.delete s b).filter (fun e => e.1 ∉ S) =
        s.filter (fun e => e.1 ∉ b :: S) := by
      simp only [GoMap.delete, List.filter_filter]
      apply List.filter_congr
      intro e _
      by_cases h1 : e.1 = b <;> by_cases h2 : e.1 ∈ S <;> simp [h1, h2]
    by_cases he : GoMap.delete s b = []
    · have hp : prune b s = none := by simp [prune, he]
      have : s.filter (fun e => e.1 ∉ b :: S) = [] := by rw [← hf, he]; rfl
      rw [hp, foldl_prune_none, this]
      simp
    · have hp : prune b s = some (GoMap.delete s b) := by simp [prune, he]
      rw [hp, ih, hf]
      by_cases hS : S = []
      · subst hS
        have : s.filter (fun e => e.1 ∉ [b]) = GoMap.delete s b := by
          rw [← hf]; simp
        rw [this, if_pos rfl, if_neg (List.cons_ne_nil b []), if_neg he]
      · rw [if_neg hS, if_neg (List.cons_ne_nil b S)]

theorem get?_cleanupRoutine_peers (t : Tracker) (now : Int) (a : String) :
    GoMap.get? (cleanupRoutine t now).peers a =
      if a ∈ staleAddrs t.peers now then none else GoMap.get? t.peers a := by
  rw [cleanupRoutine_eq]
  exact get?_foldl_delete _ _ _

theorem get?_cleanupRoutine_files (t : Tracker) (now : Int) (f : String) :
    GoMap.get? (cleanupRoutine t now).files f =
      (staleAddrs t.peers now).foldl (fun o a => o.bind (prune a)) (GoMap.get? t.files f) := by
  rw [cleanupRoutine_eq]
  exact get?_foldl_removeFromFiles _ _ _

theorem mem_keys_filter {ν : Type} (s : GoMap ν) (q : String → Bool) (p : String) :
    p ∈ GoMap.keys (s.filter (fun e => q e.1)) ↔ p ∈ GoMap.keys s ∧ q p = true := by
  simp only [GoMap.keys, List.mem_map, List.mem_filter]
  constructor
  · rintro ⟨e, ⟨he, hq⟩, rfl⟩
    exact ⟨⟨e, he, rfl⟩, hq⟩
  · rintro ⟨⟨e, he, rfl⟩, hq⟩
    exact ⟨e, ⟨he, hq⟩, rfl⟩

theorem wf_filter {ν : Type} (s : GoMap ν) (q : String × ν → Bool) (h : GoMap.WF s) :
    GoMap.WF (s.filter q) := by
  unfold GoMap.WF GoMap.keys at *
  exact h.sublist (List.Sublist.map _ (List.filter_sublist s))

theorem mem_staleAddrs (peers : GoMap Int) (now : Int) (a : String) :
    a ∈ staleAddrs peers now ↔ ∃ ts, (a, ts) ∈ peers ∧ Time.Sub now ts > staleThreshold := by
  simp only [staleAddrs, List.mem_map, List.mem_filter, decide_eq_true_eq]
  constructor
  · rintro ⟨⟨b, ts⟩, ⟨h1, h2⟩, rfl⟩
    exact ⟨ts, h1, h2⟩
  · rintro ⟨ts, h1, h2⟩
    exact ⟨(a, ts), ⟨h1, h2⟩, rfl⟩

theorem mem_staleAddrs_of_wf (peers : GoMap Int) (hwf : GoMap.WF peers) (now : Int)
    (a : String) :
    a ∈ staleAddrs peers now ↔
      ∃ ts, GoMap.get? peers a = some ts ∧ Time.Sub now ts > staleThreshold := by
  rw [mem_staleAddrs]
  constructor
  · rintro ⟨ts, h1, h2⟩
    exact ⟨ts, GoMap.get?_of_mem peers hwf a ts h1, h2⟩
  · rintro ⟨ts, h1, h2⟩
    exact ⟨ts, GoMap.get?_mem peers a ts h1, h2⟩

theorem foldl_prune_inPeerSet (S : List String) (o : Option (GoMap Bool)) (p : String) :
    (∃ s, S.foldl (fun o a => o.bind (prune a)) o = some s ∧ p ∈ GoMap.keys s) ↔
      (∃ s, o = some s ∧ p ∈ GoMap.keys s) ∧ p ∉ S := by
  cases o with
  | none => simp [foldl_prune_none]
  | some s =>
    rw [foldl_prune_some]
    have hk := mem_keys_filter s (fun k => decide (k ∉ S)) p
    by_cases hS : S = []
    · subst hS
      simp
    · rw [if_neg hS]
      by_cases he : s.filter (fun e => e.1 ∉ S) = []
      · rw [if_pos he]
        rw [he] at hk
        simp only [GoMap.keys_nil, List.not_mem_nil, false_iff, not_and,
          decide_eq_true_eq] at hk
        simp only [reduceCtorEq, false_and, exists_false, Option.some.injEq, exists_eq_left',
          false_iff, not_and]
        exact hk
      · rw [if_neg he]
        simp only [Option.some.injEq, exists_eq_left']
        rw [hk]
        simp

theorem inPeerSet_cleanupRoutine (t : Tracker) (now : Int) (f p : String) :
    InPeerSet (cleanupRoutine t now).files f p ↔
      InPeerSet t.files f p ∧ p ∉ staleAddrs t.peers now := by
  unfold InPeerSet
  rw [get?_cleanupRoutine_files]
  exact foldl_prune_inPeerSet _ _ p

theorem heartbeat_frame (t : Tracker) (msg : Message) (now : Int) :
    (handleHeartbeat t msg now).1.files = t.files ∧
    GoMap.keys (handleHeartbeat t msg now).1.peers = GoMap.keys t.peers := by
  unfold handleHeartbeat
  cases h : GoMap.get? t.peers msg.Address with
  | none => exact ⟨rfl, rfl⟩
  | some ts =>
    exact ⟨rfl, GoMap.keys_set_of_mem _ _ _ ((GoMap.mem_keys_iff _ _).2 ⟨ts, h⟩)⟩

/-! ## Validity of the maps is preserved -/

theorem wf_getD (m : GoMap (GoMap Bool)) (h : ∀ e ∈ m, GoMap.WF e.2) (f : String) :
    GoMap.WF ((GoMap.get? m f).getD []) := by
  cases hg : GoMap.get? m f with
  | none => exact List.nodup_nil
  | some s => exact h (f, s) (GoMap.get?_mem m f s hg)

theorem wf_foldl_registerFile (a : String) (fs : List String) (m : GoMap (GoMap Bool))
    (h : GoMap.WF m) : GoMap.WF (fs.foldl (registerFile a) m) := by
  induction fs generalizing m with
  | nil => exact h
  | cons f fs ih =>
    rw [List.foldl_cons]
    apply ih
    rw [registerFile_eq]
    exact GoMap.wf_set _ _ _ h

theorem wf_removeFromFile (a : String) (m : GoMap (GoMap Bool)) (k : String)
    (h : GoMap.WF m) : GoMap.WF (removeFromFile a m k) := by
  unfold removeFromFile
  have h1 : GoMap.WF (match GoMap.get? m k with
      | some s => GoMap.set m k (GoMap.delete s a)
      | none => m) := by
    cases GoMap.get? m k with
    | none => exact h
    | some s => exact GoMap.wf_set _ _ _ h
  simp only
  split
  · exact GoMap.wf_delete _ _ h1
  · exact h1

theorem wf_removeFromFiles (a : String) (m : GoMap (GoMap Bool)) (h : GoMap.WF m) :
    GoMap.WF (removeFromFiles a m) := by
  unfold removeFromFiles
  generalize GoMap.keys m = ks
  induction ks generalizing m with
  | nil => exact h
  | cons k ks ih =>
    rw [List.foldl_cons]
    exact ih _ (wf_removeFromFile a m k h)

theorem wf_foldl_removeFromFiles (S : List String) (m : GoMap (GoMap Bool))
    (h : GoMap.WF m) : GoMap.WF (S.foldl (fun fs a => removeFromFiles a fs) m) := by
  induction S generalizing m with
  | nil => exact h
  | cons b S ih =>
    rw [List.foldl_cons]
    exact ih _ (wf_removeFromFiles b m h)

theorem wf_foldl_delete {ν : Type} (S : List String) (m : GoMap ν) (h : GoMap.WF m) :
    GoMap.WF (S.foldl GoMap.delete m) := by
  induction S generalizing m with
  | nil => exact h
  | cons b S ih =>
    rw [List.foldl_cons]
    exact ih _ (GoMap.wf_delete m b h)

theorem foldl_prune_wf (S : List String) (o : Option (GoMap Bool)) (s' : GoMap Bool)
    (h : S.foldl (fun o a => o.bind (prune a)) o = some s')
    (hwf : ∀ s, o = some s → GoMap.WF s) : GoMap.WF s' := by
  cases o with
  | none => simp [foldl_prune_none] at h
  | some s =>
    rw [foldl_prune_some] at h
    have hs := hwf s rfl
    by_cases hS : S = []
    · rw [if_pos hS] at h
      cases h
      exact hs
    · rw [if_neg hS] at h
      by_cases he : s.filter (fun e => e.1 ∉ S) = []
      · rw [if_pos he] at h
        cases h
      · rw [if_neg he] at h
        cases h
        exact wf_filter s _ hs

theorem wf_handleRegister (t : Tracker) (msg : Message) (now : Int) (h : Tracker.WF t) :
    Tracker.WF (handleRegister t msg now).1 := by
  obtain ⟨h1, h2, h3⟩ := h
  have hf := wf_foldl_registerFile msg.Address msg.Files t.files h2
  refine ⟨GoMap.wf_set _ _ _ h1, hf, ?_⟩
  intro e he
  have hg := GoMap.get?_of_mem _ hf e.1 e.2 he
  change GoMap.get? (msg.Files.foldl (registerFile msg.Address) t.files) e.1 = some e.2 at hg
  rw [get?_foldl_registerFile] at hg
  by_cases hm : e.1 ∈ msg.Files
  · rw [if_pos hm] at hg
    rw [← Option.some.inj hg]
    exact GoMap.wf_set _ _ _ (wf_getD t.files h3 e.1)
  · rw [if_neg hm] at hg
    exact h3 (e.1, e.2) (GoMap.get?_mem _ _ _ hg)

theorem wf_handleHeartbeat (t : Tracker) (msg : Message) (now : Int) (h : Tracker.WF t) :
    Tracker.WF (handleHeartbeat t msg now).1 := by
  unfold handleHeartbeat
  cases GoMap.get? t.peers msg.Address with
  | none => exact h
  | some ts => exact ⟨GoMap.wf_set _ _ _ h.1, h.2.1, h.2.2⟩

theorem wf_cleanupRoutine (t : Tracker) (now : Int) (h : Tracker.WF t) :
    Tracker.WF (cleanupRoutine t now) := by
  obtain ⟨h1, h2, h3⟩ := h
  have hf : GoMap.WF (cleanupRoutine t now).files := by
    rw [cleanupRoutine_eq]
    exact wf_foldl_removeFromFiles _ _ h2
  refine ⟨?_, hf, ?_⟩
  · rw [cleanupRoutine_eq]
    exact wf_foldl_delete _ _ h1
  · intro e he
    have hg := GoMap.get?_of_mem _ hf e.1 e.2 he
    rw [get?_cleanupRoutine_files] at hg
    exact foldl_prune_wf _ _ _ hg (fun s hs => h3 (e.1, s) (GoMap.get?_mem _ _ _ hs))

theorem wf_step (t : Tracker) (op : Op) (h : Tracker.WF t) : Tracker.WF (step t op) := by
  cases op with
  | register msg now => exact wf_handleRegister t msg now h
  | heartbeat msg now => exact wf_handleHeartbeat t msg now h
  | reap now => exact wf_cleanupRoutine t now h

theorem wf_run (ops : List Op) (t : Tracker) (h : Tracker.WF t) : Tracker.WF (run t ops) := by
  induction ops generalizing t with
  | nil => exact h
  | cons op ops ih => exact ih _ (wf_step t op h)

theorem wf_NewTracker : Tracker.WF NewTracker := by decide

/-! ## Invariants of the registry -/

theorem GoMap.mem_set {ν : Type} (m : GoMap ν) (k : String) (v : ν) (e : String × ν)
    (h : e ∈ GoMap.set m k v) : e ∈ m ∨ e = (k, v) := by
  induction m with
  | nil =>
    right
    simpa [GoMap.set] using h
  | cons e0 m ih =>
    obtain ⟨k0, v0⟩ := e0
    by_cases h0 : k0 = k
    · simp only [GoMap.set, h0, if_true, List.mem_cons] at h
      rcases h with h | h
      · exact Or.inr h
      · exact Or.inl (List.mem_cons_of_mem _ h)
    · simp only [GoMap.set, h0, if_false, List.mem_cons] at h
      rcases h with h | h
      · exact Or.inl (h ▸ List.mem_cons_self _ _)
      · rcases ih h with h | h
        · exact Or.inl (List.mem_cons_of_mem _ h)
        · exact Or.inr h

theorem GoMap.set_ne_nil {ν : Type} (m : GoMap ν) (k : String) (v : ν) :
    GoMap.set m k v ≠ [] := by
  cases m with
  | nil => simp [GoMap.set]
  | cons e m =>
    obtain ⟨k0, v0⟩ := e
    by_cases h0 : k0 = k <;> simp [GoMap.set, h0]

theorem mem_keys_getD (m : GoMap (GoMap Bool)) (f p : String) :
    p ∈ GoMap.keys ((GoMap.get? m f).getD []) ↔ InPeerSet m f p := by
  unfold InPeerSet
  cases GoMap.get? m f <;> simp

theorem inPeerSet_foldl_registerFile (a : String) (fs : List String) (m : GoMap (GoMap Bool))
    (f p : String) :
    InPeerSet (fs.foldl (registerFile a) m) f p ↔ InPeerSet m f p ∨ (f ∈ fs ∧ p = a) := by
  by_cases hf : f ∈ fs
  · have h1 : InPeerSet (fs.foldl (registerFile a) m) f p ↔
        p ∈ GoMap.keys (GoMap.set ((GoMap.get? m f).getD []) a true) := by
      unfold InPeerSet
      rw [get?_foldl_registerFile, if_pos hf]
      simp
    rw [h1, GoMap.mem_keys_set, mem_keys_getD]
    simp [hf, or_comm]
  · unfold InPeerSet
    rw [get?_foldl_registerFile, if_neg hf]
    simp [hf]

theorem noZombie_step (t : Tracker) (op : Op) (h : NoZombie t) : NoZombie (step t op) := by
  cases op with
  | register msg now =>
    intro f p hp
    change InPeerSet (msg.Files.foldl (registerFile msg.Address) t.files) f p at hp
    change p ∈ GoMap.keys (GoMap.set t.peers msg.Address now)
    rw [inPeerSet_foldl_registerFile] at hp
    rw [GoMap.mem_keys_set]
    rcases hp with hp | ⟨_, hp⟩
    · exact Or.inr (h f p hp)
    · exact Or.inl hp
  | heartbeat msg now =>
    intro f p hp
    have hs := heartbeat_frame t msg now
    rw [show step t (Op.heartbeat msg now) = (handleHeartbeat t msg now).1 from rfl] at hp ⊢
    rw [hs.1] at hp
    rw [hs.2]
    exact h f p hp
  | reap now =>
    intro f p hp
    change InPeerSet (cleanupRoutine t now).files f p at hp
    change p ∈ GoMap.keys (cleanupRoutine t now).peers
    rw [inPeerSet_cleanupRoutine] at hp
    rw [GoMap.mem_keys_iff, get?_cleanupRoutine_peers, if_neg hp.2, ← GoMap.mem_keys_iff]
    exact h f p hp.1

theorem noEmpty_step (t : Tracker) (op : Op) (h : NoEmpty t) : NoEmpty (step t op) := by
  cases op with
  | register msg now =>
    intro f s hs
    change GoMap.get? (msg.Files.foldl (registerFile msg.Address) t.files) f = some s at hs
    rw [get?_foldl_registerFile] at hs
    by_cases hf : f ∈ msg.Files
    · rw [if_pos hf] at hs
      rw [← Option.some.inj hs]
      exact GoMap.set_ne_nil _ _ _
    · rw [if_neg hf] at hs
      exact h f s hs
  | heartbeat msg now =>
    intro f s hs
    rw [show step t (Op.heartbeat msg now) = (handleHeartbeat t msg now).1 from rfl,
      (heartbeat_frame t msg now).1] at hs
    exact h f s hs
  | reap now =>
    intro f s hs
    change GoMap.get? (cleanupRoutine t now).files f = some s at hs
    rw [get?_cleanupRoutine_files] at hs
    cases hg : GoMap.get? t.files f with
    | none => simp [hg, foldl_prune_none] at hs
    | some s0 =>
      rw [hg, foldl_prune_some] at hs
      by_cases hS : staleAddrs t.peers now = []
      · rw [if_pos hS] at hs
        rw [← Option.some.inj hs]
        exact h f s0 hg
      · rw [if_neg hS] at hs
        by_cases he : s0.filter (fun e => e.1 ∉ staleAddrs t.peers now) = []
        · rw [if_pos he] at hs
          cases hs
        · rw [if_neg he] at hs
          rw [← Option.some.inj hs]
          exact he

theorem noZombie_run (ops : List Op) (t : Tracker) (h : NoZombie t) : NoZombie (run t ops) := by
  induction ops generalizing t with
  | nil => exact h
  | cons op ops ih => exact ih _ (noZombie_step t op h)

theorem noEmpty_run (ops : List Op) (t : Tracker) (h : NoEmpty t) : NoEmpty (run t ops) := by
  induction ops generalizing t with
  | nil => exact h
  | cons op ops ih => exact ih _ (noEmpty_step t op h)

/-- Claim C1.  In every tracker state reached from `NewTracker` by `register`,
`heartbeat` and reaper steps at arbitrary times, every address found in the
peer set of some entry of the file index has an entry in the liveness map. -/
theorem registry_invariant (ops : List Op) :
    ∀ e ∈ (run NewTracker ops).files, ∀ a ∈ GoMap.keys e.2,
      a ∈ GoMap.keys (run NewTracker ops).peers := by
  intro e he a ha
  have hwf := wf_run ops NewTracker wf_NewTracker
  have hz : NoZombie (run NewTracker ops) := by
    apply noZombie_run
    intro f p hp
    obtain ⟨s, hs, _⟩ := hp
    simp [NewTracker] at hs
  exact hz e.1 a ⟨e.2, GoMap.get?_of_mem _ hwf.2.1 e.1 e.2 he, ha⟩

/-- Witness for `registry_invariant`: after `a` registers the file `f`, the
address `a` of the peer set of `f` has a liveness record. -/
theorem registry_invariant_witness :
    ("f", [("a", true)]) ∈
        (run NewTracker [Op.register { Command := "register", Address := "a", Files := ["f"] } 0]).files ∧
      "a" ∈ GoMap.keys [("a", true)] ∧
      "a" ∈ GoMap.keys
        (run NewTracker [Op.register { Command := "register", Address := "a", Files := ["f"] } 0]).peers :=
  ⟨by decide, by decide,
    registry_invariant [Op.register { Command := "register", Address := "a", Files := ["f"] } 0]
      ("f", [("a", true)]) (by decide) "a" (by decide)⟩

/-! ## The answers of `list` and `getpeers` -/

theorem mem_keys_listInner (k : String) (ps : List String) (fm : GoMap (List String))
    (f : String) :
    f ∈ GoMap.keys (ps.foldl
        (fun fm peer => GoMap.set fm k ((GoMap.get? fm k).getD [] ++ [peer])) fm) ↔
      f ∈ GoMap.keys fm ∨ (f = k ∧ ps ≠ []) := by
  induction ps generalizing fm with
  | nil => simp
  | cons p ps ih =>
    rw [List.foldl_cons, ih, GoMap.mem_keys_set]
    by_cases hf : f = k <;> simp [hf]

theorem nonempty_listInner (k : String) (ps : List String) (fm : GoMap (List String))
    (h : ∀ e ∈ fm, e.2 ≠ []) :
    ∀ e ∈ ps.foldl
        (fun fm peer => GoMap.set fm k ((GoMap.get? fm k).getD [] ++ [peer])) fm, e.2 ≠ [] := by
  induction ps generalizing fm with
  | nil => exact h
  | cons p ps ih =>
    rw [List.foldl_cons]
    apply ih
    intro e he
    rcases GoMap.mem_set _ _ _ _ he with he | he
    · exact h e he
    · rw [he]
      simp

theorem mem_keys_listOuter (es : GoMap (GoMap Bool)) (fm : GoMap (List String)) (f : String) :
    f ∈ GoMap.keys (es.foldl
        (fun fm e => (GoMap.keys e.2).foldl
          (fun fm peer => GoMap.set fm e.1 ((GoMap.get? fm e.1).getD [] ++ [peer])) fm) fm) ↔
      f ∈ GoMap.keys fm ∨ ∃ e ∈ es, e.1 = f ∧ e.2 ≠ [] := by
  induction es generalizing fm with
  | nil => simp
  | cons e es ih =>
    rw [List.foldl_cons, ih, mem_keys_listInner]
    have hk : GoMap.keys e.2 ≠ [] ↔ e.2 ≠ [] := by
      cases e.2 <;> simp
    rw [hk]
    constructor
    · rintro ((h | ⟨h1, h2⟩) | ⟨e', he', h⟩)
      · exact Or.inl h
      · exact Or.inr ⟨e, List.mem_cons_self _ _, h1.symm, h2⟩
      · exact Or.inr ⟨e', List.mem_cons_of_mem _ he', h⟩
    · rintro (h | ⟨e', he', h⟩)
      · exact Or.inl (Or.inl h)
      · rcases List.mem_cons.1 he' with rfl | he'
        · exact Or.inl (Or.inr ⟨h.1.symm, h.2⟩)
        · exact Or.inr ⟨e', he', h⟩

theorem nonempty_listOuter (es : GoMap (GoMap Bool)) (fm : GoMap (List String))
    (h : ∀ e ∈ fm, e.2 ≠ []) :
    ∀ e ∈ es.foldl
        (fun fm e => (GoMap.keys e.2).foldl
          (fun fm peer => GoMap.set fm e.1 ((GoMap.get? fm e.1).getD [] ++ [peer])) fm) fm,
      e.2 ≠ [] := by
  induction es generalizing fm with
  | nil => exact h
  | cons e es ih =>
    rw [List.foldl_cons]
    exact ih _ (nonempty_listInner _ _ _ h)

theorem mem_keys_handleList (t : Tracker) (f : String) :
    f ∈ GoMap.keys (handleList t).FileMap ↔ ∃ e ∈ t.files, e.1 = f ∧ e.2 ≠ [] := by
  have h := mem_keys_listOuter t.files [] f
  simpa [handleList] using h

theorem nonempty_handleList (t : Tracker) : ∀ e ∈ (handleList t).FileMap, e.2 ≠ [] :=
  nonempty_listOuter t.files [] (by simp)

theorem handleGetPeers_peers (t : Tracker) (msg : Message) :
    (handleGetPeers t msg).Peers = GoMap.keys ((GoMap.get? t.files msg.Filename).getD []) := by
  unfold handleGetPeers
  cases GoMap.get? t.files msg.Filename <;> rfl

/-- Claim C8.  In every tracker state reached from `NewTracker` by `register`,
`heartbeat` and reaper steps, no entry of the file index has an empty peer
set; the filemap answered by `list` has exactly the filenames of the file
index, each with at least one peer; and `getpeers` answers a non-empty peer
list exactly for the filenames that are keys of the file index. -/
theorem no_empty_entry (ops : List Op) :
    (∀ e ∈ (run NewTracker ops).files, e.2 ≠ []) ∧
    (∀ e ∈ (handleList (run NewTracker ops)).FileMap, e.2 ≠ []) ∧
    (∀ f, f ∈ GoMap.keys (handleList (run NewTracker ops)).FileMap ↔
      f ∈ GoMap.keys (run NewTracker ops).files) ∧
    (∀ msg : Message, (handleGetPeers (run NewTracker ops) msg).Peers ≠ [] ↔
      msg.Filename ∈ GoMap.keys (run NewTracker ops).files) := by
  have hwf := wf_run ops NewTracker wf_NewTracker
  have hne : NoEmpty (run NewTracker ops) := by
    apply noEmpty_run
    intro f s hs
    simp [NewTracker] at hs
  have h1 : ∀ e ∈ (run NewTracker ops).files, e.2 ≠ [] := fun e he =>
    hne e.1 e.2 (GoMap.get?_of_mem _ hwf.2.1 e.1 e.2 he)
  refine ⟨h1, nonempty_handleList _, ?_, ?_⟩
  · intro f
    rw [mem_keys_handleList]
    constructor
    · rintro ⟨e, he, rfl, _⟩
      exact List.mem_map.2 ⟨e, he, rfl⟩
    · intro hf
      obtain ⟨e, he, rfl⟩ := List.mem_map.1 hf
      exact ⟨e, he, rfl, h1 e he⟩
  · intro msg
    rw [handleGetPeers_peers]
    cases hg : GoMap.get? (run NewTracker ops).files msg.Filename with
    | none =>
      have := (GoMap.get?_eq_none_iff _ _).1 hg
      simp [this]
    | some s =>
      have hk := (GoMap.mem_keys_iff _ _).2 ⟨s, hg⟩
      have hs := hne _ s hg
      simp only [Option.getD_some, hk, iff_true]
      intro h0
      apply hs
      cases s with
      | nil => rfl
      | cons e s => simp [GoMap.keys] at h0

/-! ## Postcondition of a reaper pass -/

theorem stale_iff (now ts : Int) :
    Time.Sub now ts > staleThreshold ↔ now - ts > 3 * Minute := by
  have e1 : staleThreshold = 180000000000 := by decide
  have e2 : (3 : Int) * Minute = 180000000000 := by decide
  have e3 : maxDuration = 9223372036854775807 := by decide
  have e4 : minDuration = -9223372036854775808 := by decide
  rw [e1, e2]
  unfold Time.Sub
  rw [e3, e4]
  split_ifs with h1 h2
  · constructor <;> intro <;> omega
  · constructor <;> intro <;> omega
  · rfl

theorem mem_staleAddrs_iff_isStale (peers : GoMap Int) (hwf : GoMap.WF peers) (now : Int)
    (a : String) : a ∈ staleAddrs peers now ↔ IsStale peers now a := by
  rw [mem_staleAddrs_of_wf peers hwf]
  unfold IsStale
  simp only [stale_iff]

theorem foldl_prune_ne_nil (S : List String) (hS : S ≠ []) (o : Option (GoMap Bool))
    (s' : GoMap Bool) (h : S.foldl (fun o a => o.bind (prune a)) o = some s') : s' ≠ [] := by
  cases o with
  | none => simp [foldl_prune_none] at h
  | some s =>
    rw [foldl_prune_some, if_neg hS] at h
    by_cases he : s.filter (fun e => e.1 ∉ S) = []
    · rw [if_pos he] at h
      cases h
    · rw [if_neg he] at h
      rw [← Option.some.inj h]
      exact he

theorem keys_ne_nil {ν : Type} (s : GoMap ν) (h : s ≠ []) : ∃ p, p ∈ GoMap.keys s := by
  cases s with
  | nil => exact absurd rfl h
  | cons e s => exact ⟨e.1, List.mem_cons_self _ _⟩

theorem cleanupRoutine_emptied (t : Tracker) (now : Int) (f : String) (s : GoMap Bool)
    (hs : GoMap.get? t.files f = some s) (hne : s ≠ [])
    (hall : ∀ p ∈ GoMap.keys s, p ∈ staleAddrs t.peers now) :
    GoMap.get? (cleanupRoutine t now).files f = none := by
  cases hg : GoMap.get? (cleanupRoutine t now).files f with
  | none => rfl
  | some s' =>
    exfalso
    obtain ⟨q, hq⟩ := keys_ne_nil s hne
    have hS : staleAddrs t.peers now ≠ [] := List.ne_nil_of_mem (hall q hq)
    have hg' := hg
    rw [get?_cleanupRoutine_files] at hg'
    obtain ⟨p, hp⟩ := keys_ne_nil s' (foldl_prune_ne_nil _ hS _ _ hg')
    have h1 := (inPeerSet_cleanupRoutine t now f p).1 ⟨s', hg, hp⟩
    obtain ⟨⟨s0, hs0, hp0⟩, hnot⟩ := h1
    rw [hs] at hs0
    cases hs0
    exact hnot (hall p hp0)

/-- Claim C2.  One reaper pass at `now` over a tracker whose liveness map is a
valid Go map: the liveness entries whose timestamp is more than three minutes
before `now` are removed and every other entry keeps its timestamp; a peer is
in a file's peer set afterwards exactly when it was there before and is not one
of the removed peers; no file entry appears; a file entry whose peers were all
removed is deleted, is absent from the filemap of `list`, and `getpeers`
answers no peers for it. -/
theorem cleanupRoutine_spec (t : Tracker) (hwf : GoMap.WF t.peers) (now : Int) :
    (∀ a, IsStale t.peers now a → GoMap.get? (cleanupRoutine t now).peers a = none) ∧
    (∀ a, ¬ IsStale t.peers now a →
      GoMap.get? (cleanupRoutine t now).peers a = GoMap.get? t.peers a) ∧
    (∀ f p, InPeerSet (cleanupRoutine t now).files f p ↔
      InPeerSet t.files f p ∧ ¬ IsStale t.peers now p) ∧
    (∀ f, f ∈ GoMap.keys (cleanupRoutine t now).files → f ∈ GoMap.keys t.files) ∧
    (∀ f s, GoMap.get? t.files f = some s → s ≠ [] →
      (∀ p ∈ GoMap.keys s, IsStale t.peers now p) →
      f ∉ GoMap.keys (cleanupRoutine t now).files ∧
      f ∉ GoMap.keys (handleList (cleanupRoutine t now)).FileMap ∧
      ∀ msg : Message, msg.Filename = f →
        (handleGetPeers (cleanupRoutine t now) msg).Peers = []) := by
  have hst := mem_staleAddrs_iff_isStale t.peers hwf now
  refine ⟨?_, ?_, ?_, ?_, ?_⟩
  · intro a ha
    rw [get?_cleanupRoutine_peers, if_pos ((hst a).2 ha)]
  · intro a ha
    rw [get?_cleanupRoutine_peers, if_neg (fun h => ha ((hst a).1 h))]
  · intro f p
    rw [inPeerSet_cleanupRoutine, hst]
  · intro f hf
    obtain ⟨s', hs'⟩ := (GoMap.mem_keys_iff _ _).1 hf
    rw [get?_cleanupRoutine_files] at hs'
    cases hg : GoMap.get? t.files f with
    | none => simp [hg, foldl_prune_none] at hs'
    | some s => exact (GoMap.mem_keys_iff _ _).2 ⟨s, hg⟩
  · intro f s hs hne hall
    have hnone := cleanupRoutine_emptied t now f s hs hne (fun p hp => (hst p).2 (hall p hp))
    have hk : f ∉ GoMap.keys (cleanupRoutine t now).files := (GoMap.get?_eq_none_iff _ _).1 hnone
    refine ⟨hk, ?_, ?_⟩
    · rw [mem_keys_handleList]
      rintro ⟨e, he, rfl, _⟩
      exact hk (List.mem_map.2 ⟨e, he, rfl⟩)
    · intro msg hmsg
      rw [handleGetPeers_peers, hmsg, hnone]
      rfl

/-- Witness for `cleanupRoutine_spec`: in `sampleTracker` at four minutes, peer
`a` is removed, peer `b` is kept, and the file `f`, held by `a` alone, is no
longer served. -/
theorem cleanupRoutine_spec_witness :
    GoMap.WF sampleTracker.peers ∧
    GoMap.get? (cleanupRoutine sampleTracker (4 * Minute)).peers "a" = none ∧
    GoMap.get? (cleanupRoutine sampleTracker (4 * Minute)).peers "b" =
      GoMap.get? sampleTracker.peers "b" ∧
    (InPeerSet (cleanupRoutine sampleTracker (4 * Minute)).files "g" "b" ↔
      InPeerSet sampleTracker.files "g" "b" ∧ ¬ IsStale sampleTracker.peers (4 * Minute) "b") ∧
    (handleGetPeers (cleanupRoutine sampleTracker (4 * Minute))
      { Command := "getpeers", Filename := "f" }).Peers = [] :=
  ⟨by decide,
    (cleanupRoutine_spec sampleTracker (by decide) (4 * Minute)).1 "a" (by decide),
    (cleanupRoutine_spec sampleTracker (by decide) (4 * Minute)).2.1 "b" (by decide),
    (cleanupRoutine_spec sampleTracker (by decide) (4 * Minute)).2.2.1 "g" "b",
    ((cleanupRoutine_spec sampleTracker (by decide) (4 * Minute)).2.2.2.2 "f" [("a", true)]
      (by decide) (by decide) (by decide)).2.2 _ rfl⟩

/-! ## Discoverability of registered peers -/

theorem inPeerSet_run (p f : String) (ops : List Op) (t : Tracker) (hwf : Tracker.WF t)
    (hin : InPeerSet t.files f p) (hs : notReaped p t ops = true) :
    InPeerSet (run t ops).files f p := by
  induction ops generalizing t with
  | nil => exact hin
  | cons op ops ih =>
    have hwf' := wf_step t op hwf
    cases op with
    | register msg now =>
      refine ih _ hwf' ?_ hs
      exact (inPeerSet_foldl_registerFile _ _ _ _ _).2 (Or.inl hin)
    | heartbeat msg now =>
      refine ih _ hwf' ?_ hs
      rw [show step t (Op.heartbeat msg now) = (handleHeartbeat t msg now).1 from rfl,
        (heartbeat_frame t msg now).1]
      exact hin
    | reap now =>
      simp only [notReaped, Bool.and_eq_true, decide_eq_true_eq] at hs
      refine ih _ hwf' ?_ hs.2
      refine (inPeerSet_cleanupRoutine t now f p).2 ⟨hin, ?_⟩
      rw [mem_staleAddrs_iff_isStale t.peers hwf.1]
      exact hs.1

/-- Claim C9.  Starting from a tracker whose maps are valid Go maps, after
`register(P, files)` with `F` in `files` and any further sequence of
`register`, `heartbeat` and reaper steps along which `P` is not reaped, the
peer list answered by `getpeers(F)` contains `P` exactly once. -/
theorem registered_peer_discoverable (t : Tracker) (hwf : Tracker.WF t) (msg : Message)
    (now : Int) (F : String) (hF : F ∈ msg.Files) (ops : List Op)
    (hs : notReaped msg.Address (handleRegister t msg now).1 ops = true) :
    (handleGetPeers (run (handleRegister t msg now).1 ops)
      { Command := "getpeers", Filename := F }).Peers.count msg.Address = 1 := by
  have hwf1 := wf_handleRegister t msg now hwf
  have hin : InPeerSet (handleRegister t msg now).1.files F msg.Address :=
    (inPeerSet_foldl_registerFile _ _ _ _ _).2 (Or.inr ⟨hF, rfl⟩)
  obtain ⟨s, hs1, hs2⟩ := inPeerSet_run _ _ ops _ hwf1 hin hs
  have hwf2 := wf_run ops _ hwf1
  rw [handleGetPeers_peers]
  simp only [hs1, Option.getD_some]
  exact List.count_eq_one_of_mem (hwf2.2.2 (F, s) (GoMap.get?_mem _ _ _ hs1)) hs2

/-- Witness for `registered_peer_discoverable`: `b` registers `g`, then `a`
registers, `b` sends a heartbeat and the reaper runs twice; `b` is still the
one entry for itself in `getpeers(g)`. -/
theorem registered_peer_discoverable_witness :
    Tracker.WF sampleTracker ∧
    "g" ∈ ["g", "h"] ∧
    notReaped "b"
      (handleRegister sampleTracker { Command := "register", Address := "b", Files := ["g", "h"] }
        (5 * Minute)).1
      [Op.reap (6 * Minute),
        Op.register { Command := "register", Address := "a", Files := ["g"] } (7 * Minute),
        Op.heartbeat { Command := "heartbeat", Address := "b" } (7 * Minute),
        Op.reap (10 * Minute)] = true ∧
    (handleGetPeers
      (run
        (handleRegister sampleTracker
          { Command := "register", Address := "b", Files := ["g", "h"] } (5 * Minute)).1
        [Op.reap (6 * Minute),
          Op.register { Command := "register", Address := "a", Files := ["g"] } (7 * Minute),
          Op.heartbeat { Command := "heartbeat", Address := "b" } (7 * Minute),
          Op.reap (10 * Minute)])
      { Command := "getpeers", Filename := "g" }).Peers.count "b" = 1 :=
  ⟨by decide, by decide, by decide,
    registered_peer_discoverable sampleTracker (by decide)
      { Command := "register", Address := "b", Files := ["g", "h"] } (5 * Minute) "g"
      (by decide) _ (by decide)⟩

/-! ## Eviction timing -/

theorem not_registered_run (p : String) (ops : List Op) (t : Tracker)
    (hp : GoMap.get? t.peers p = none) (hops : ops.all (fun op => !registersAddr p op) = true) :
    GoMap.get? (run t ops).peers p = none := by
  induction ops generalizing t with
  | nil => exact hp
  | cons op ops ih =>
    simp only [List.all_cons, Bool.and_eq_true, Bool.not_eq_true'] at hops
    refine ih _ ?_ hops.2
    cases op with
    | register msg now =>
      have hne : p ≠ msg.Address := by
        intro h
        simp [registersAddr, h] at hops
      change GoMap.get? (GoMap.set t.peers msg.Address now) p = none
      rw [GoMap.get?_set_ne _ _ _ _ hne]
      exact hp
    | heartbeat msg now =>
      rw [GoMap.get?_eq_none_iff] at hp ⊢
      rw [show step t (Op.heartbeat msg now) = (handleHeartbeat t msg now).1 from rfl,
        (heartbeat_frame t msg now).2]
      exact hp
    | reap now =>
      change GoMap.get? (cleanupRoutine t now).peers p = none
      rw [get?_cleanupRoutine_peers, hp]
      simp

/-- Counterexample to claim C4 as stated.  A peer registers at time 0 and then
misses two consecutive heartbeats, so at the reaper pass its last refresh is
three heartbeat intervals (90 seconds) old: the pass keeps its record and its
next heartbeat is answered "ok". -/
theorem two_missed_heartbeats_not_reaped :
    GoMap.get?
      (cleanupRoutine
        (handleRegister NewTracker { Command := "register", Address := "p", Files := ["f"] } 0).1
        (3 * heartbeatInterval)).peers "p" = some 0 ∧
    (handleHeartbeat
      (cleanupRoutine
        (handleRegister NewTracker { Command := "register", Address := "p", Files := ["f"] } 0).1
        (3 * heartbeatInterval))
      { Command := "heartbeat", Address := "p" } (3 * heartbeatInterval)).2.Status = "ok" := by
  decide

/-- Claim C4, amended.  The staleness threshold is six heartbeat intervals,
hence strictly greater than one.  A reaper pass keeps, with its timestamp, a
peer whose last refresh is at most six heartbeat intervals old (in particular
two or three intervals old: one or two missed heartbeats), and removes a peer
whose last refresh is more than six intervals old; from then on, through any
steps that contain no `register` of that peer, its heartbeat is answered
"peer not registered", and once it registers again its heartbeat is answered
"ok". -/
theorem eviction_timing (t : Tracker) (hwf : GoMap.WF t.peers) (p : String) (ts now : Int)
    (hp : GoMap.get? t.peers p = some ts) :
    heartbeatInterval < staleThreshold ∧
    staleThreshold = 6 * heartbeatInterval ∧
    (now - ts ≤ 6 * heartbeatInterval → GoMap.get? (cleanupRoutine t now).peers p = some ts) ∧
    (now - ts > 6 * heartbeatInterval →
      GoMap.get? (cleanupRoutine t now).peers p = none ∧
      ∀ ops : List Op, ops.all (fun op => !registersAddr p op) = true →
        (∀ (files : List String) (now1 : Int),
          (handleHeartbeat (run (cleanupRoutine t now) ops)
            { Command := "heartbeat", Address := p, Files := files } now1).2.Status =
              "peer not registered") ∧
        (∀ (files1 files2 : List String) (now1 now2 : Int),
          (handleHeartbeat
            (handleRegister (run (cleanupRoutine t now) ops)
              { Command := "register", Address := p, Files := files1 } now1).1
            { Command := "heartbeat", Address := p, Files := files2 } now2).2.Status = "ok")) := by
  have e6 : (6 : Int) * heartbeatInterval = 3 * Minute := by decide
  have hst := mem_staleAddrs_iff_isStale t.peers hwf now p
  refine ⟨by decide, by decide, ?_, ?_⟩
  · intro hle
    have hns : p ∉ staleAddrs t.peers now := by
      rw [hst]
      rintro ⟨ts', h1, h2⟩
      rw [hp] at h1
      cases h1
      rw [e6] at hle
      exact absurd h2 (not_lt.2 hle)
    rw [get?_cleanupRoutine_peers, if_neg hns, hp]
  · intro hgt
    have hs : p ∈ staleAddrs t.peers now := by
      rw [hst]
      exact ⟨ts, hp, by rw [← e6]; exact hgt⟩
    have hnone : GoMap.get? (cleanupRoutine t now).peers p = none := by
      rw [get?_cleanupRoutine_peers, if_pos hs]
    refine ⟨hnone, ?_⟩
    intro ops hops
    have hrun := not_registered_run p ops _ hnone hops
    constructor
    · intro files now1
      simp [handleHeartbeat, hrun]
    · intro files1 files2 now1 now2
      simp [handleHeartbeat, handleRegister]

/-- Witness for `eviction_timing`: in `sampleTracker` the peer `a`, last seen
at time 0, is removed by a reaper pass at four minutes. -/
theorem eviction_timing_witness :
    GoMap.WF sampleTracker.peers ∧
    GoMap.get? sampleTracker.peers "a" = some 0 ∧
    (4 * Minute - 0 > 6 * heartbeatInterval) ∧
    GoMap.get? (cleanupRoutine sampleTracker (4 * Minute)).peers "a" = none :=
  ⟨by decide, by decide, by decide,
    ((eviction_timing sampleTracker (by decide) "a" 0 (4 * Minute) (by decide)).2.2.2
      (by decide)).1⟩

/-! ## Heartbeat -/

/-- Claim C3.  `handleHeartbeat` answers "ok" exactly when the address already
has a liveness record, whatever the message carries in `Files`.  For a
registered address the record's timestamp becomes `now`, every other record
keeps its timestamp, the registered addresses and the file index are
unchanged; for an unregistered address the answer is "peer not registered"
and the tracker state is unchanged. -/
theorem handleHeartbeat_spec (t : Tracker) (msg : Message) (now : Int) :
    ((handleHeartbeat t msg now).2.Status = "ok" ↔ msg.Address ∈ GoMap.keys t.peers) ∧
    (msg.Address ∈ GoMap.keys t.peers →
      (handleHeartbeat t msg now).2 = { Status := "ok" } ∧
      GoMap.get? (handleHeartbeat t msg now).1.peers msg.Address = some now ∧
      (∀ a, a ≠ msg.Address →
        GoMap.get? (handleHeartbeat t msg now).1.peers a = GoMap.get? t.peers a) ∧
      GoMap.keys (handleHeartbeat t msg now).1.peers = GoMap.keys t.peers ∧
      (handleHeartbeat t msg now).1.files = t.files) ∧
    (msg.Address ∉ GoMap.keys t.peers →
      (handleHeartbeat t msg now).2 = { Status := "peer not registered" } ∧
      (handleHeartbeat t msg now).1 = t) := by
  cases h : GoMap.get? t.peers msg.Address with
  | none =>
    have hk : msg.Address ∉ GoMap.keys t.peers := (GoMap.get?_eq_none_iff _ _).1 h
    simp [handleHeartbeat, h, hk]
  | some ts =>
    have hk : msg.Address ∈ GoMap.keys t.peers := (GoMap.mem_keys_iff _ _).2 ⟨ts, h⟩
    simp only [handleHeartbeat, h, hk, true_implies, not_true_eq_false, false_implies,
      and_true, iff_true, true_and]
    refine ⟨GoMap.get?_set_self _ _ _, fun a ha => GoMap.get?_set_ne _ _ _ _ ha,
      GoMap.keys_set_of_mem _ _ _ hk⟩

/-! ## Ordered failover of `DownloadFile` -/

theorem attempts_cons {σ : Type} (dl : σ → String → Option String × σ) (w : σ) (a : String)
    (ps : List String) :
    attempts dl w (a :: ps) = (a, (dl w a).1) :: attempts dl (dl w a).2 ps := rfl

theorem map_fst_attempts {σ : Type} (dl : σ → String → Option String × σ) (ps : List String)
    (w : σ) : (attempts dl w ps).map Prod.fst = ps := by
  induction ps generalizing w with
  | nil => rfl
  | cons a ps ih => simp [attempts_cons, ih]

theorem tryPeers_eq {σ : Type} (dl : σ → String → Option String × σ) (ps : List String)
    (w : σ) (le : Option String) (log : List (String × Option String)) :
    ((tryPeers dl ps w le log).1 = none ↔ ∃ e ∈ attempts dl w ps, e.2 = none) ∧
    (tryPeers dl ps w le log).2.1 = log ++ (attempts dl w ps).take (firstSuccess dl w ps + 1) ∧
    (tryPeers dl ps w le log).2.2 = worldAfter dl w (ps.take (firstSuccess dl w ps + 1)) := by
  induction ps generalizing w le log with
  | nil => simp [tryPeers, attempts, worldAfter]
  | cons a ps ih =>
    unfold tryPeers
    cases hd : dl w a with
    | mk r w' =>
      cases r with
      | none =>
        simp [firstSuccess, attempts_cons, hd, List.findIdx_cons, worldAfter]
      | some err =>
        obtain ⟨h1, h2, h3⟩ := ih w' (some err) (log ++ [(a, some err)])
        have hfs : firstSuccess dl w (a :: ps) = firstSuccess dl w' ps + 1 := by
          simp [firstSuccess, attempts_cons, hd, List.findIdx_cons]
        refine ⟨?_, ?_, ?_⟩
        · simp only [h1]
          simp [attempts_cons, hd]
        · simp only [h2, hfs]
          simp [attempts_cons, hd]
        · simp only [h3, hfs]
          simp [worldAfter, hd]

theorem findIdx_of_all_false {α : Type} (q : α → Bool) (l : List α)
    (h : ∀ x ∈ l, q x = false) : l.findIdx q = l.length := by
  induction l with
  | nil => rfl
  | cons x l ih =>
    rw [List.findIdx_cons, h x (List.mem_cons_self _ _)]
    simp [ih (fun y hy => h y (List.mem_cons_of_mem _ hy))]

theorem firstSuccess_of_all_fail {σ : Type} (dl : σ → String → Option String × σ) (w : σ)
    (ps : List String) (hfail : ∀ e ∈ attempts dl w ps, e.2 ≠ none) :
    firstSuccess dl w ps = ps.length := by
  unfold firstSuccess
  rw [findIdx_of_all_false]
  · rw [← List.length_map (attempts dl w ps) Prod.fst, map_fst_attempts]
  · intro e he
    cases h : e.2 with
    | none => exact absurd h (hfail e he)
    | some err => rfl

theorem tryPeers_exhausted {σ : Type} (dl : σ → String → Option String × σ)
    (ps : List String) (w : σ) (le : Option String) (log : List (String × Option String))
    (hfail : ∀ e ∈ attempts dl w ps, e.2 ≠ none) :
    (tryPeers dl ps w le log).1 =
      some ("all download attempts failed. Last error: " ++
        fmtError (match (attempts dl w ps).getLast? with
          | some e => e.2
          | none => le)) := by
  induction ps generalizing w le log with
  | nil => simp [tryPeers, attempts]
  | cons a ps ih =>
    have hfa := hfail (a, (dl w a).1) (by simp [attempts_cons])
    have hrest : ∀ e ∈ attempts dl (dl w a).2 ps, e.2 ≠ none := fun e he =>
      hfail e (by simp [attempts_cons, he])
    unfold tryPeers
    cases hd : dl w a with
    | mk r w' =>
      rw [hd] at hfa hrest
      cases r with
      | none => exact absurd rfl hfa
      | some err =>
        simp only [ih w' (some err) _ hrest, attempts_cons, hd]
        cases hps : attempts dl w' ps with
        | nil => simp
        | cons e es =>
          obtain ⟨c, hc⟩ : ∃ c, (e :: es).getLast? = some c :=
            ⟨_, List.getLast?_eq_getLast _ (List.cons_ne_nil e es)⟩
          simp [List.getLast?_cons_cons, hc]

theorem getLast?_attempts {σ : Type} (dl : σ → String → Option String × σ) (ps : List String)
    (hne : ps ≠ []) (w : σ) :
    ∃ o, (attempts dl w ps).getLast? = some (ps.getLast hne, o) := by
  induction ps generalizing w with
  | nil => exact absurd rfl hne
  | cons a ps ih =>
    cases ps with
    | nil => exact ⟨(dl w a).1, rfl⟩
    | cons b ps =>
      obtain ⟨o, ho⟩ := ih (List.cons_ne_nil b ps) (dl w a).2
      refine ⟨o, ?_⟩
      rw [attempts_cons, attempts_cons, List.getLast?_cons_cons, ← attempts_cons, ho]
      simp

theorem DownloadFile_ok {σ : Type} (response : Message) (hok : response.Status = "ok")
    (hne : response.Peers ≠ []) (dl : σ → String → Option String × σ) (w : σ) :
    DownloadFile (Except.ok response) dl w = tryPeers dl response.Peers w none [] := by
  have hlen : response.Peers.length ≠ 0 := fun h => hne (List.length_eq_zero.1 h)
  simp [DownloadFile, hok, hlen]

/-- Claim C5.  For a `getpeers` response with status "ok" and a non-empty peer
list, and any `downloadFromPeer`, whose outcomes may depend on the world:
`DownloadFile` succeeds exactly when some attempt succeeds as the peers are
tried in the order received; the calls it makes, with their outcomes, are the
attempts on the peers up to and including the first one that succeeds (all of
them when none succeeds); the peers called are that initial segment of the
list; and the world it leaves is the one left by calling exactly those peers,
in order, once each, so no later peer is contacted and none is retried. -/
theorem DownloadFile_failover {σ : Type} (response : Message) (hok : response.Status = "ok")
    (hne : response.Peers ≠ []) (dl : σ → String → Option String × σ) (w : σ) :
    ((DownloadFile (Except.ok response) dl w).1 = none ↔
      ∃ e ∈ attempts dl w response.Peers, e.2 = none) ∧
    (DownloadFile (Except.ok response) dl w).2.1 =
      (attempts dl w response.Peers).take (firstSuccess dl w response.Peers + 1) ∧
    (DownloadFile (Except.ok response) dl w).2.1.map Prod.fst =
      response.Peers.take (firstSuccess dl w response.Peers + 1) ∧
    (DownloadFile (Except.ok response) dl w).2.2 =
      worldAfter dl w (response.Peers.take (firstSuccess dl w response.Peers + 1)) := by
  rw [DownloadFile_ok response hok hne]
  obtain ⟨h1, h2, h3⟩ := tryPeers_eq dl response.Peers w none []
  refine ⟨h1, by simpa using h2, ?_, h3⟩
  rw [h2, List.nil_append, List.map_take, map_fst_attempts]

/-- Witness for `DownloadFile_failover`.  Peers `[A, B]`, `A` unreachable and
`B` reachable: the download succeeds after dialling `A` and then `B`, and
nothing else.  Peers `[A, A, A]` with a peer that serves from the second
dial on: the download succeeds after two dials and the third is not made. -/
theorem DownloadFile_failover_witness :
    ({ Status := "ok", Peers := ["A", "B"] } : Message).Status = "ok" ∧
    ({ Status := "ok", Peers := ["A", "B"] } : Message).Peers ≠ [] ∧
    (DownloadFile (Except.ok { Status := "ok", Peers := ["A", "B"] })
      (sampleDownload true) []).1 = none ∧
    (DownloadFile (Except.ok { Status := "ok", Peers := ["A", "B"] })
      (sampleDownload true) []).2.1 =
        [("A", some "dial tcp A: connection refused"), ("B", none)] ∧
    (DownloadFile (Except.ok { Status := "ok", Peers := ["A", "B"] })
      (sampleDownload true) []).2.2 = ["A", "B"] ∧
    (DownloadFile (Except.ok { Status := "ok", Peers := ["A", "A", "A"] })
      retryDownload []).2.1 = [("A", some "EOF"), ("A", none)] ∧
    (DownloadFile (Except.ok { Status := "ok", Peers := ["A", "A", "A"] })
      retryDownload []).2.2 = ["A", "A"] :=
  ⟨rfl, by decide,
    (DownloadFile_failover { Status := "ok", Peers := ["A", "B"] } rfl (by decide)
      (sampleDownload true) []).1.2 ⟨("B", none), by decide, rfl⟩,
    (DownloadFile_failover { Status := "ok", Peers := ["A", "B"] } rfl (by decide)
      (sampleDownload true) []).2.1.trans (by decide),
    (DownloadFile_failover { Status := "ok", Peers := ["A", "B"] } rfl (by decide)
      (sampleDownload true) []).2.2.2.trans (by decide),
    (DownloadFile_failover { Status := "ok", Peers := ["A", "A", "A"] } rfl (by decide)
      retryDownload []).2.1.trans (by decide),
    (DownloadFile_failover { Status := "ok", Peers := ["A", "A", "A"] } rfl (by decide)
      retryDownload []).2.2.2.trans (by decide)⟩

/-- Claim C6.  For any `downloadFromPeer`, whose errors may depend on the
world, and any world: (1) for a `getpeers` response with status "ok" and a
non-empty peer list on which every attempt fails as the peers are tried in
order, `DownloadFile` fails with the error "all download attempts failed.
Last error: " followed by the error of the attempt on the last peer of the
list, after calling every peer of the list once, in order; (2) for a response
without peers, whatever its status, `DownloadFile` fails with "no peers
available for file", calls no peer and leaves the world as it was. -/
theorem DownloadFile_exhaustion {σ : Type} (dl : σ → String → Option String × σ) (w : σ) :
    (∀ (response : Message) (hne : response.Peers ≠ []), response.Status = "ok" →
      (∀ e ∈ attempts dl w response.Peers, e.2 ≠ none) →
      ∃ err,
        (attempts dl w response.Peers).getLast? =
          some (response.Peers.getLast hne, some err) ∧
        (DownloadFile (Except.ok response) dl w).1 =
          some ("all download attempts failed. Last error: " ++ err) ∧
        (DownloadFile (Except.ok response) dl w).2.1 = attempts dl w response.Peers ∧
        (DownloadFile (Except.ok response) dl w).2.2 = worldAfter dl w response.Peers) ∧
    (∀ response : Message, response.Peers = [] →
      DownloadFile (Except.ok response) dl w = (some "no peers available for file", [], w)) := by
  constructor
  · intro response hne hok hfail
    obtain ⟨o, ho⟩ := getLast?_attempts dl response.Peers hne w
    have hmem : (response.Peers.getLast hne, o) ∈ attempts dl w response.Peers :=
      List.mem_of_getLast?_eq_some ho
    obtain ⟨err, herr⟩ := Option.ne_none_iff_exists'.1 (hfail _ hmem)
    simp only at herr
    subst herr
    obtain ⟨_, h2, h3⟩ := tryPeers_eq dl response.Peers w none []
    have hfs := firstSuccess_of_all_fail dl w response.Peers hfail
    have hlen : (attempts dl w response.Peers).length = response.Peers.length := by
      rw [← List.length_map (attempts dl w response.Peers) Prod.fst, map_fst_attempts]
    refine ⟨err, ho, ?_, ?_, ?_⟩
    · rw [DownloadFile_ok response hok hne, tryPeers_exhausted dl _ _ _ _ hfail, ho]
      rfl
    · rw [DownloadFile_ok response hok hne, h2, hfs, List.nil_append]
      exact List.take_of_length_le (by omega)
    · rw [DownloadFile_ok response hok hne, h3, hfs]
      rw [List.take_of_length_le (by omega)]
  · intro r hr
    simp [DownloadFile, hr]

/-- Witness for `DownloadFile_exhaustion`.  Peers `[A, B]`, both unreachable:
the error returned carries the failure of `B`, after `A` and `B` were dialled
once each.  A response without peers: the download fails at once and nothing
is dialled. -/
theorem DownloadFile_exhaustion_witness :
    (∃ err,
      (attempts (sampleDownload false) [] ["A", "B"]).getLast? = some ("B", some err) ∧
      (DownloadFile (Except.ok { Status := "ok", Peers := ["A", "B"] })
        (sampleDownload false) []).1 =
          some ("all download attempts failed. Last error: " ++ err) ∧
      (DownloadFile (Except.ok { Status := "ok", Peers := ["A", "B"] })
        (sampleDownload false) []).2.1 = attempts (sampleDownload false) [] ["A", "B"] ∧
      (DownloadFile (Except.ok { Status := "ok", Peers := ["A", "B"] })
        (sampleDownload false) []).2.2 = worldAfter (sampleDownload false) [] ["A", "B"]) ∧
    DownloadFile (Except.ok { Status := "ok", Peers := [] }) (sampleDownload false) [] =
      (some "no peers available for file", [], []) ∧
    DownloadFile (Except.ok { Status := "ok", Peers := ["A", "B"] }) (sampleDownload false) [] =
      (some "all download attempts failed. Last error: dial tcp B: connection refused",
        [("A", some "dial tcp A: connection refused"),
          ("B", some "dial tcp B: connection refused")],
        ["A", "B"]) :=
  ⟨(DownloadFile_exhaustion (sampleDownload false) []).1
      { Status := "ok", Peers := ["A", "B"] } (by decide) rfl (by decide),
    (DownloadFile_exhaustion (sampleDownload false) []).2 { Status := "ok", Peers := [] } rfl,
    by decide⟩

/-! ## Path resolution in the file server -/

theorem splitSep_ne_nil (p : List Char) : splitSep p ≠ [] := by
  cases p with
  | nil => simp [splitSep]
  | cons c cs =>
    unfold splitSep
    split
    · simp
    · split <;> simp

theorem splitSep_append (a b : List Char) :
    splitSep (a ++ '/' :: b) = splitSep a ++ splitSep b := by
  induction a with
  | nil => simp [splitSep]
  | cons c a ih =>
    by_cases hc : c = '/'
    · simp [splitSep, hc, ih]
    · cases hs : splitSep a with
      | nil => exact absurd hs (splitSep_ne_nil a)
      | cons e es =>
        simp [splitSep, hc, ih, hs]

theorem splitSep_noSep (e : List Char) (h : '/' ∉ e) : splitSep e = [e] := by
  induction e with
  | nil => rfl
  | cons c e ih =>
    have hc : c ≠ '/' := fun x => h (x ▸ List.mem_cons_self _ _)
    have he : '/' ∉ e := fun x => h (List.mem_cons_of_mem _ x)
    simp [splitSep, hc, ih he]

theorem not_sep_mem_splitSep (p : List Char) : ∀ e ∈ splitSep p, '/' ∉ e := by
  induction p with
  | nil => simp [splitSep]
  | cons c cs ih =>
    by_cases hc : c = '/'
    · intro e he
      simp only [splitSep, hc, if_true, List.mem_cons] at he
      rcases he with rfl | he
      · simp
      · exact ih e he
    · cases hs : splitSep cs with
      | nil => exact absurd hs (splitSep_ne_nil cs)
      | cons e0 es =>
        rw [hs] at ih
        intro e he
        simp only [splitSep, hc, if_false, hs, List.mem_cons] at he
        rcases he with rfl | he
        · intro hmem
          rcases List.mem_cons.1 hmem with h | h
          · exact hc h.symm
          · exact ih e0 (List.mem_cons_self _ _) h
        · exact ih e (List.mem_cons_of_mem _ he)

theorem splitSep_joinSep (e : List Char) (out : List (List Char))
    (h : ∀ x ∈ e :: out, '/' ∉ x) : splitSep (joinSep (e :: out)) = e :: out := by
  induction out generalizing e with
  | nil => exact splitSep_noSep e (h e (List.mem_cons_self _ _))
  | cons e' out ih =>
    rw [joinSep, splitSep_append, splitSep_noSep e (h e (List.mem_cons_self _ _)),
      ih e' (fun x hx => h x (List.mem_cons_of_mem _ hx))]
    rfl

theorem cleanElem_normal (r : Bool) (st : List (List Char) × Nat) (e : List Char)
    (h : Normal e) : cleanElem r st e = (st.1 ++ [e], st.2) := by
  obtain ⟨h1, h2, h3, _⟩ := h
  simp [cleanElem, h1, h2, h3]

theorem foldl_cleanElem_normal (r : Bool) (ns : List (List Char))
    (st : List (List Char) × Nat) (h : ∀ e ∈ ns, Normal e) :
    ns.foldl (cleanElem r) st = (st.1 ++ ns, st.2) := by
  induction ns generalizing st with
  | nil => simp
  | cons e ns ih =>
    rw [List.foldl_cons, cleanElem_normal r st e (h e (List.mem_cons_self _ _)),
      ih _ (fun x hx => h x (List.mem_cons_of_mem _ hx))]
    simp

theorem foldl_cleanElem_dots (k j : Nat) :
    (List.replicate k ['.', '.']).foldl (cleanElem false) (List.replicate j ['.', '.'], j) =
      (List.replicate (j + k) ['.', '.'], j + k) := by
  induction k generalizing j with
  | zero => rfl
  | succ k ih =>
    rw [List.replicate_succ, List.foldl_cons]
    have h1 : cleanElem false (List.replicate j ['.', '.'], j) ['.', '.'] =
        (List.replicate (j + 1) ['.', '.'], j + 1) := by
      simp [cleanElem, List.replicate_succ']
    rw [h1, ih]
    have : j + 1 + k = j + (k + 1) := by omega
    rw [this]

theorem foldl_cleanElem_noDotDot (r : Bool) (es : List (List Char))
    (st : List (List Char) × Nat) (h : ['.', '.'] ∉ es) :
    es.foldl (cleanElem r) st =
      (st.1 ++ es.filter (fun e => decide (e ≠ [] ∧ e ≠ ['.'])), st.2) := by
  induction es generalizing st with
  | nil => simp
  | cons e es ih =>
    have he : e ≠ ['.', '.'] := fun x => h (x ▸ List.mem_cons_self _ _)
    have hes : ['.', '.'] ∉ es := fun x => h (List.mem_cons_of_mem _ x)
    rw [List.foldl_cons, ih _ hes]
    by_cases h1 : e = []
    · simp [cleanElem, h1]
    · by_cases h2 : e = ['.']
      · simp [cleanElem, h2]
      · simp [cleanElem, h1, h2, he]

theorem cleanElem_inv (r : Bool) (st : List (List Char) × Nat) (e : List Char)
    (hinv : CleanInv r st) (he : '/' ∉ e) : CleanInv r (cleanElem r st e) := by
  obtain ⟨ns, h1, h2, h3⟩ := hinv
  have hlen : st.1.length = st.2 + ns.length := by simp [h1]
  unfold cleanElem
  split_ifs with c1 c2 c3 c4 c5
  · exact ⟨ns, h1, h2, h3⟩
  · exact ⟨ns, h1, h2, h3⟩
  · have hns : ns ≠ [] := by
      intro h0
      rw [h0] at hlen
      simp at hlen
      omega
    refine ⟨ns.dropLast, ?_, fun x hx => h2 x (List.dropLast_subset ns hx), h3⟩
    simp only [h1]
    exact List.dropLast_append_of_ne_nil _ hns
  · have hns : ns = [] := by
      apply List.eq_nil_of_length_eq_zero
      omega
    refine ⟨[], ?_, by simp, fun hr => by simp [hr] at c5⟩
    simp only [h1, hns, List.append_nil, List.length_replicate, c3]
    exact (List.replicate_succ' _ _).symm
  · exact ⟨ns, h1, h2, h3⟩
  · refine ⟨ns ++ [e], ?_, ?_, h3⟩
    · simp [h1]
    · intro x hx
      rcases List.mem_append.1 hx with hx | hx
      · exact h2 x hx
      · rw [List.mem_singleton.1 hx]
        exact ⟨c1, c2, c3, he⟩

theorem foldl_cleanElem_inv (r : Bool) (es : List (List Char)) (st : List (List Char) × Nat)
    (hinv : CleanInv r st) (hes : ∀ e ∈ es, '/' ∉ e) : CleanInv r (es.foldl (cleanElem r) st) := by
  induction es generalizing st with
  | nil => exact hinv
  | cons e es ih =>
    rw [List.foldl_cons]
    exact ih _ (cleanElem_inv r st e hinv (hes e (List.mem_cons_self _ _)))
      (fun x hx => hes x (List.mem_cons_of_mem _ hx))

theorem cleanInv_cleanElems (path : List Char) :
    CleanInv (cleanElems path).1
      ((splitSep path).foldl (cleanElem (cleanElems path).1) ([], 0)) :=
  foldl_cleanElem_inv _ _ _ ⟨[], rfl, by simp, fun _ => rfl⟩ (not_sep_mem_splitSep path)

theorem head?_joinSep (e : List Char) (out : List (List Char)) (h : e ≠ []) :
    (joinSep (e :: out)).head? = e.head? := by
  cases e with
  | nil => exact absurd rfl h
  | cons c e => cases out <;> rfl

theorem normal_dots_free (k : Nat) (ns : List (List Char)) (h : ∀ e ∈ ns, Normal e) :
    ∀ x ∈ List.replicate k ['.', '.'] ++ ns, x ≠ [] ∧ '/' ∉ x := by
  intro x hx
  rcases List.mem_append.1 hx with hx | hx
  · rw [(List.mem_replicate.1 hx).2]
    decide
  · exact ⟨(h x hx).1, (h x hx).2.2.2⟩

theorem cleanElems_render (r : Bool) (st : List (List Char) × Nat) (hinv : CleanInv r st) :
    cleanElems (render (r, st.1)) = (r, st.1) := by
  obtain ⟨ns, h1, h2, h3⟩ := hinv
  have hfree := normal_dots_free st.2 ns h2
  rw [← h1] at hfree
  cases r with
  | true =>
    have hdd : st.2 = 0 := h3 rfl
    have hout : st.1 = ns := by rw [h1, hdd]; rfl
    rw [hout] at hfree ⊢
    cases ns with
    | nil => rfl
    | cons e out =>
      have hs := splitSep_joinSep e out (fun x hx => (hfree x hx).2)
      simp only [cleanElems, render, List.head?_cons, decide_True, splitSep, if_true, hs,
        List.foldl_cons]
      have h0 : cleanElem true ([], 0) [] = ([], 0) := rfl
      rw [h0, ← List.foldl_cons, foldl_cleanElem_normal true (e :: out) _ h2]
      rfl
  | false =>
    cases hst : st.1 with
    | nil => rfl
    | cons e out =>
      rw [hst] at hfree
      have he := hfree e (List.mem_cons_self _ _)
      have hhead : (joinSep (e :: out)).head? ≠ some '/' := by
        rw [head?_joinSep e out he.1]
        cases e with
        | nil => exact absurd rfl he.1
        | cons c e =>
          intro hc
          simp only [List.head?_cons, Option.some.injEq] at hc
          exact he.2 (hc ▸ List.mem_cons_self _ _)
      have hs := splitSep_joinSep e out (fun x hx => (hfree x hx).2)
      simp only [cleanElems, render, hhead, decide_False, hs]
      rw [← hst, h1, List.foldl_append]
      have hd := foldl_cleanElem_dots st.2 0
      simp only [List.replicate_zero, Nat.zero_add] at hd
      rw [hd, foldl_cleanElem_normal false ns _ h2]

theorem cleanElems_idem (path : List Char) :
    cleanElems (render (cleanElems path)) = cleanElems path :=
  cleanElems_render _ _ (cleanInv_cleanElems path)

theorem Clean_eq (path : String) : Clean path = String.mk (render (cleanElems path.data)) := by
  unfold Clean
  split
  · next h => subst h; rfl
  · rfl

theorem isPrefixOf_append_self (a b : List (List Char)) : List.isPrefixOf a (a ++ b) = true := by
  induction a with
  | nil => simp [List.isPrefixOf]
  | cons x a ih => simp [List.isPrefixOf, ih]

theorem cleanElems_append (dir fn : List Char) (hdir : dir ≠ [])
    (hfn : ['.', '.'] ∉ splitSep fn) :
    cleanElems (dir ++ '/' :: fn) =
      ((cleanElems dir).1,
        (cleanElems dir).2 ++ (splitSep fn).filter (fun e => decide (e ≠ [] ∧ e ≠ ['.']))) := by
  have hhead : (dir ++ '/' :: fn).head? = dir.head? := by
    cases dir with
    | nil => exact absurd rfl hdir
    | cons c dir => rfl
  simp only [cleanElems, hhead, splitSep_append, List.foldl_append]
  rw [foldl_cleanElem_noDotDot _ _ _ hfn]

theorem Join_pair (dir fn : String) (hdir : dir ≠ "") :
    Join [dir, fn] = String.mk (render (cleanElems (dir.data ++ '/' :: fn.data))) := by
  have h : Join [dir, fn] = Clean (dir ++ "/" ++ fn) := by
    simp [Join, List.dropWhile, hdir, String.intercalate, String.intercalate.go]
  rw [h, Clean_eq]
  simp [String.data_append]

theorem handleDownload_path (p : Peer) (fs : String → Option (Option Int)) (msg : Message) :
    (handleDownload p fs msg).1 = Join [p.SharedDir, msg.Filename] := by
  unfold handleDownload
  dsimp only
  split <;> rfl

/-- Counterexample to claim C7 as stated.  A peer sharing the directory `shared`
receives a download request for `../secret.txt`: the path it opens is
`secret.txt`, which is not within `shared`, and the file found there is
served with status "ok". -/
theorem path_traversal_escapes :
    (handleDownload samplePeer sampleFs { Command := "download", Filename := "../secret.txt" }).1 =
      "secret.txt" ∧
    ¬ Within samplePeer.SharedDir
      (handleDownload samplePeer sampleFs
        { Command := "download", Filename := "../secret.txt" }).1 ∧
    (handleDownload samplePeer sampleFs { Command := "download", Filename := "../secret.txt" }).2 =
      { Status := "ok", Size := 7 } := by
  decide

/-- Claim C7, amended.  For a non-empty shared directory and a filename none of
whose path elements is `..`, the path that `handleDownload` opens is
`filepath.Join(p.SharedDir, msg.Filename)` and lies within the shared
directory. -/
theorem handleDownload_confined (p : Peer) (fs : String → Option (Option Int)) (msg : Message)
    (hdir : p.SharedDir ≠ "") (hfn : ['.', '.'] ∉ splitSep msg.Filename.data) :
    (handleDownload p fs msg).1 = Join [p.SharedDir, msg.Filename] ∧
    Within p.SharedDir (handleDownload p fs msg).1 := by
  refine ⟨handleDownload_path p fs msg, ?_⟩
  have hd : p.SharedDir.data ≠ [] := fun h => hdir (String.ext h)
  rw [handleDownload_path, Join_pair _ _ hdir]
  show (cleanElems p.SharedDir.data).1 =
      (cleanElems (render (cleanElems (p.SharedDir.data ++ '/' :: msg.Filename.data)))).1 ∧
    List.isPrefixOf (cleanElems p.SharedDir.data).2
      (cleanElems (render (cleanElems (p.SharedDir.data ++ '/' :: msg.Filename.data)))).2 = true
  rw [cleanElems_idem, cleanElems_append _ _ hd hfn]
  exact ⟨rfl, isPrefixOf_append_self _ _⟩

/-- Witness for `handleDownload_confined`: the request for `a.txt` opens
`shared/a.txt`. -/
theorem handleDownload_confined_witness :
    samplePeer.SharedDir ≠ "" ∧
    ['.', '.'] ∉ splitSep ({ Command := "download", Filename := "a.txt" } : Message).Filename.data ∧
    (handleDownload samplePeer sampleFs { Command := "download", Filename := "a.txt" }).1 =
      Join [samplePeer.SharedDir, "a.txt"] ∧
    Within samplePeer.SharedDir
      (handleDownload samplePeer sampleFs { Command := "download", Filename := "a.txt" }).1 :=
  ⟨by decide, by decide,
    handleDownload_confined samplePeer sampleFs { Command := "download", Filename := "a.txt" }
      (by decide) (by decide)⟩

end P2P
